import Mathlib

/-!
A verification development for the `radically-straightforward` client-side
page-update layer.

The definitions below are a shallow embedding of the JavaScript source:

* `backgroundJob` (from `utilities`, the scheduler primitive) is embedded as a
  state machine `BackgroundJob` with a step function `jobStep` over the events
  that can reach the closure: the job completing, the pending timer firing, and
  the external `run()` / `stop()` calls.  `jobStep` also reports how many times
  the unit of work was invoked (started) by the event, so that theorems can
  count executions.

* `morph`, `documentMount`, `liveNavigate`, `liveConnection`, `parents` (from
  `javascript/static/index.mjs`) are embedded over an explicit DOM tree type
  `Node`; DOM mutations are reported in an explicit `Mutation` trace.
-/

namespace RS

/-! ## Scheduler (`utilities` `backgroundJob`) -/

/-- The five states of the scheduler, verbatim from the source:
`"initial" | "running" | "runningAndMarkedForRerun" | "sleeping" | "stopped"`. -/

inductive JobState where
  | initial
  | running
  | runningAndMarkedForRerun
  | sleeping
  | stopped
deriving DecidableEq, Repr

/-- The mutable closure state of one `backgroundJob()` instance: the `state`
variable and the `timeout` variable.  `timerPending` models whether a
`setTimeout` is currently scheduled; `timerZeroDelay` records whether it was
scheduled with delay `0` (the `runningAndMarkedForRerun` branch) as opposed to
`interval + interval * intervalVariance * Math.random()`. -/

structure BackgroundJob where
  state : JobState
  timerPending : Bool
  timerZeroDelay : Bool
deriving DecidableEq, Repr

/-- The events that can act on the closure state. -/

inductive JobEvent where
  /-- The `await job()` inside the internal `run()` returns. -/
  | jobComplete
  /-- The pending `setTimeout` fires, calling the internal `run()`. -/
  | timerFire
  /-- The external `run()` method is called. -/
  | runCall
  /-- The external `stop()` method is called. -/
  | stopCall
deriving DecidableEq, Repr

/-- Entering the internal `async function run()`: `state = "running"` and the
unit of work is invoked (hence the `1` invocation count). -/

def startRun (s : BackgroundJob) : BackgroundJob × Nat :=
  ({ s with state := .running }, 1)

/-- One step of the scheduler.  Returns the next closure state and the number
of invocations of the unit of work started by this event (0 or 1).

* `jobComplete`: after `await job()` the source runs
  `if (state === "running" || state === "runningAndMarkedForRerun") {
     timeout = setTimeout(run, state === "runningAndMarkedForRerun" ? 0 : …);
     state = "sleeping"; }`.
* `timerFire`: the scheduled `setTimeout(run, …)` fires (only possible while a
  timer is pending) and calls the internal `run()`.
* `runCall`: `switch (state) { case "sleeping": clearTimeout(timeout); run();
  break; case "running": state = "runningAndMarkedForRerun"; break; }` — note
  that there is no case for `"runningAndMarkedForRerun"`, `"stopped"` or
  `"initial"`, so those are no-ops.
* `stopCall`: `if (state === "sleeping") clearTimeout(timeout);
  state = "stopped";`. -/

def jobStep (s : BackgroundJob) : JobEvent → BackgroundJob × Nat
  | .jobComplete =>
    if s.state = .running ∨ s.state = .runningAndMarkedForRerun then
      ({ state := .sleeping
         timerPending := true
         timerZeroDelay := s.state = .runningAndMarkedForRerun }, 0)
    else (s, 0)
  | .timerFire =>
    if s.timerPending then
      startRun { s with timerPending := false, timerZeroDelay := false }
    else (s, 0)
  | .runCall =>
    match s.state with
    | .sleeping =>
      startRun { s with timerPending := false, timerZeroDelay := false }
    | .running => ({ s with state := .runningAndMarkedForRerun }, 0)
    | _ => (s, 0)
  | .stopCall =>
    ({ s with
       state := .stopped
       timerPending := if s.state = .sleeping then false else s.timerPending }, 0)

/-- Run a sequence of events, accumulating the number of unit-of-work
invocations that were started. -/

def jobRun (s : BackgroundJob) (es : List JobEvent) : BackgroundJob × Nat :=
  es.foldl (fun acc e => ((jobStep acc.1 e).1, acc.2 + (jobStep acc.1 e).2)) (s, 0)

/-- Closure-state well-formedness: a timer is only pending while sleeping
(the source only assigns `timeout = setTimeout(…)` together with
`state = "sleeping"`). -/

def JobWF (s : BackgroundJob) : Prop :=
  s.timerPending = true → s.state = .sleeping

/-- A terminal closure state: stopped with no timer scheduled. -/

def JobStopped (s : BackgroundJob) : Prop :=
  s.state = .stopped ∧ s.timerPending = false

/-! ## DOM model

The DOM tree as seen by `morph()` / `documentMount()`.  An element carries:

* `id` — models JavaScript object identity of the DOM node (two distinct live
  nodes have distinct `id`s);
* `tag`, `attrs` — the tag name and the ordered attribute list
  (`getAttributeNames()` order);
* `valueProp`, `checkedProp` — the run-time `value` / `checked` *properties*
  (meaningful for `input` / `textarea`), which can diverge from the
  attributes of the same names;
* `lcu` — the programmatic `liveConnectionUpdate` property: unset, `false`
  (`LCU.off`), or a `Set` of attribute names (`LCU.allow`);
* `children` — the ordered child nodes.
-/

/-- The tri-state `liveConnectionUpdate` element property. -/

inductive LCU where
  | unset
  | off
  | allow (names : List String)
deriving DecidableEq, Repr

inductive Node where
  | element (id : Nat) (tag : String) (attrs : List (String × String))
      (valueProp : String) (checkedProp : Bool) (lcu : LCU)
      (children : List Node)
  | text (id : Nat) (value : String)
deriving Repr

mutual

def Node.decEq : (a b : Node) → Decidable (a = b)
  | .element i1 t1 a1 v1 c1 l1 ch1, .element i2 t2 a2 v2 c2 l2 ch2 =>
    if h : i1 = i2 ∧ t1 = t2 ∧ a1 = a2 ∧ v1 = v2 ∧ c1 = c2 ∧ l1 = l2 then
      match Node.decEqList ch1 ch2 with
      | isTrue hc => isTrue (by
          obtain ⟨h1, h2, h3, h4, h5, h6⟩ := h
          subst_vars
          rfl)
      | isFalse hc => isFalse (by intro he; injection he; contradiction)
    else
      isFalse (by
        intro he
        injection he with e1 e2 e3 e4 e5 e6 e7
        exact h ⟨e1, e2, e3, e4, e5, e6⟩)
  | .text i1 v1, .text i2 v2 =>
    if h : i1 = i2 ∧ v1 = v2 then
      isTrue (by obtain ⟨h1, h2⟩ := h; subst_vars; rfl)
    else
      isFalse (by intro he; injection he with e1 e2; exact h ⟨e1, e2⟩)
  | .element _ _ _ _ _ _ _, .text _ _ => isFalse (fun h => Node.noConfusion h)
  | .text _ _, .element _ _ _ _ _ _ _ => isFalse (fun h => Node.noConfusion h)

def Node.decEqList : (xs ys : List Node) → Decidable (xs = ys)
  | [], [] => isTrue rfl
  | x :: xs, y :: ys =>
    match Node.decEq x y, Node.decEqList xs ys with
    | isTrue h1, isTrue h2 => isTrue (by rw [h1, h2])
    | isFalse h1, _ => isFalse (by intro h; injection h; contradiction)
    | _, isFalse h2 => isFalse (by intro h; injection h; contradiction)
  | [], _ :: _ => isFalse (fun h => List.noConfusion h)
  | _ :: _, [] => isFalse (fun h => List.noConfusion h)

end

instance : DecidableEq Node := Node.decEq

/-- JavaScript object identity of the DOM node. -/

def Node.id : Node → Nat
  | .element i _ _ _ _ _ _ => i
  | .text i _ => i

/-- `node.nodeType === node.ELEMENT_NODE`. -/

def Node.isElement : Node → Bool
  | .element _ _ _ _ _ _ _ => true
  | .text _ _ => false

def Node.tag : Node → String
  | .element _ t _ _ _ _ _ => t
  | .text _ _ => ""

def Node.attrs : Node → List (String × String)
  | .element _ _ a _ _ _ _ => a
  | .text _ _ => []

def Node.valueProp : Node → String
  | .element _ _ _ v _ _ _ => v
  | .text _ _ => ""

def Node.checkedProp : Node → Bool
  | .element _ _ _ _ c _ _ => c
  | .text _ _ => false

def Node.lcu : Node → LCU
  | .element _ _ _ _ _ l _ => l
  | .text _ _ => .unset

def Node.children : Node → List Node
  | .element _ _ _ _ _ _ ch => ch
  | .text _ _ => []

/-- `node.liveConnectionUpdate === false` (for text child nodes the property
is absent, hence not `false`). -/

def Node.lcuIsOff (n : Node) : Bool := n.lcu == .off

/-- `element.liveConnectionUpdate?.has?.(name)`: `true` only when the
property is a `Set` containing `name`. -/

def lcuHas (n : Node) (name : String) : Bool :=
  match n.lcu with
  | .allow names => names.contains name
  | _ => false

/-! ### Attribute list operations (the `Element` attribute API) -/

/-- `element.getAttribute(name)`: the value of the first attribute with that
name, or `null` (`none`) when absent. -/

def getAttr (attrs : List (String × String)) (name : String) : Option String :=
  match attrs with
  | [] => none
  | (n, v) :: rest => if n = name then some v else getAttr rest name

/-- `element.setAttribute(name, value)`: overwrite in place when present
(keeping the attribute order), append otherwise. -/

def setAttr (attrs : List (String × String)) (name value : String) :
    List (String × String) :=
  match attrs with
  | [] => [(name, value)]
  | (n, v) :: rest =>
    if n = name then (n, value) :: rest else (n, v) :: setAttr rest name value

/-- `element.removeAttribute(name)`. -/

def removeAttr (attrs : List (String × String)) (name : String) :
    List (String × String) :=
  attrs.filter (fun a => a.1 ≠ name)

/-- `element.getAttributeNames()`. -/

def Node.attrNames (n : Node) : List String := n.attrs.map Prod.fst

/-! ### `parents()` and the ancestor chain -/

/-- The `parentElement` chain of a DOM node: either `null` or a node together
with its own parent chain.  (During `morph()` only the `liveConnectionUpdate`
property of the chain's elements is ever read, and `morph()` never writes
that property, so carrying the pre-morph node values is observationally
faithful.) -/

inductive DomRef where
  | null
  | node (n : Node) (parentElement : DomRef)

/-- `parents(element)` from the source:
`while (element !== null) { parents.push(element); element = element.parentElement; }` -/

def parents : DomRef → List Node
  | .null => []
  | .node n p => n :: parents p

/-! ### The derived diffing key -/

/-- The `key` arrow function inside `morph()`:
``` `${node.nodeType}--${node.nodeType === node.ELEMENT_NODE
      ? `${node.tagName}--${node.getAttribute("key")}` : node.nodeValue}` ```
`nodeType` is `1` for elements and `3` for text nodes; interpolating the
`null` of a missing `key` attribute produces the string `"null"`. -/

def nodeKey : Node → String
  | .element _ tag attrs _ _ _ _ =>
    "1--" ++ tag ++ "--" ++ (getAttr attrs "key").getD "null"
  | .text _ v => "3--" ++ v

/-! ### DOM mutations

`morph()` mutates the live tree in place; the embedding returns the new value
of the live node together with a trace of the DOM calls it performed, so that
theorems can speak about "zero mutations" and about which nodes were removed. -/

inductive Mutation where
  | setAttribute (elementId : Nat) (name value : String)
  | removeAttribute (elementId : Nat) (name : String)
  | setValueProp (elementId : Nat) (value : String)
  | setCheckedProp (elementId : Nat) (value : Bool)
  | removeChild (parentId childId : Nat)
  | insertBefore (parentId childId : Nat) (refId : Option Nat)
deriving DecidableEq, Repr

/-! ### The child diff

The source delegates the diff to the external `fast-myers-diff` package
(`fastMyersDiff.diff(fromChildNodesKeys, toChildNodesKeys)`), which yields the
maximal change regions `[fromStart, fromEnd, toStart, toEnd)` of a
longest-common-subsequence diff, separated by nonempty matched runs.  That
package is an external collaborator (not part of this repository), so it is
embedded here as a standard LCS diff producing regions in the same format. -/

structure DiffRegion where
  fromStart : Nat
  fromEnd : Nat
  toStart : Nat
  toEnd : Nat
deriving DecidableEq, Repr

/-- The index pairs of a longest common subsequence of the two key lists
(strictly increasing in both components; equal heads are always matched,
which is optimal for LCS).  Structured with a fuel argument bounding the sum
of the lengths, so the function is structurally recursive. -/

def lcsPairsF : Nat → List String → List String → List (Nat × Nat)
  | 0, _, _ => []
  | _ + 1, [], _ => []
  | _ + 1, _ :: _, [] => []
  | fuel + 1, x :: xs, y :: ys =>
    if x = y then
      (0, 0) :: (lcsPairsF fuel xs ys).map (fun p => (p.1 + 1, p.2 + 1))
    else
      let a := (lcsPairsF fuel xs (y :: ys)).map (fun p => (p.1 + 1, p.2))
      let b := (lcsPairsF fuel (x :: xs) ys).map (fun p => (p.1, p.2 + 1))
      if b.length ≤ a.length then a else b

/-- See `lcsPairsF`: the fuel `|xs| + |ys|` always suffices. -/

def lcsPairs (xs ys : List String) : List (Nat × Nat) :=
  lcsPairsF (xs.length + ys.length) xs ys

/-- Convert the matched index pairs into maximal change regions.  `go fi ti`
walks both sequences from position `(fi, ti)`; each matched pair closes the
current change region (if nonempty). -/

def diffRegionsGo (n m : Nat) : Nat → Nat → List (Nat × Nat) → List DiffRegion
  | fi, ti, [] =>
    if fi < n ∨ ti < m then [⟨fi, n, ti, m⟩] else []
  | fi, ti, (fj, tj) :: rest =>
    (if fi < fj ∨ ti < tj then [⟨fi, fj, ti, tj⟩] else [])
      ++ diffRegionsGo n m (fj + 1) (tj + 1) rest

/-- The change regions of the diff of two key sequences of lengths `n`, `m`. -/

def diffRegions (n m : Nat) (pairs : List (Nat × Nat)) : List DiffRegion :=
  diffRegionsGo n m 0 0 pairs

/-- `childNodes` slice `[s, e)`. -/

def childSlice (children : List Node) (s e : Nat) : List Node :=
  (children.drop s).take (e - s)

/-! ### Child reconciliation inside `morph()` -/

/-- The `toRemove` map: a JavaScript `Map` from derived key to a queue of
removal-candidate live nodes, in insertion order. -/

abbrev RemovalMap := List (String × List Node)

/-- `toRemove.get(key)?.push(node) ?? toRemove.set(key, [node])`. -/

def removalPush (m : RemovalMap) (k : String) (node : Node) : RemovalMap :=
  match (List.lookup k m : Option (List Node)) with
  | some _ =>
    m.map (fun e => if e.1 = k then (e.1, e.2 ++ [node]) else e)
  | none => m ++ [(k, [node])]

/-- `toRemove.get(key)?.shift()`: pop the front of the queue for `key`
(`undefined` when the key is absent or its queue already empty). -/

def removalShift (m : RemovalMap) (k : String) : Option Node × RemovalMap :=
  match (List.lookup k m : Option (List Node)) with
  | none => (none, m)
  | some [] => (none, m)
  | some (node :: rest) =>
    (some node, m.map (fun e => if e.1 = k then (e.1, rest) else e))

/-- All nodes remaining in the queues, in iteration order
(`for (const nodes of toRemove.values()) for (const node of nodes) …`). -/

def removalNodes (m : RemovalMap) : List Node :=
  m.flatMap Prod.snd

/-- First loop over the change regions: live-side nodes inside a change
region become removal candidates, bucketed by key — except, on a push
update, nodes whose `liveConnectionUpdate` is `false`. -/

def collectRemovals (push : Bool) (children : List Node)
    (regions : List DiffRegion) : RemovalMap :=
  regions.foldl (fun m r =>
    (childSlice children r.fromStart r.fromEnd).foldl (fun m node =>
      if push && node.lcuIsOff then m
      else removalPush m (nodeKey node) node) m) []

/-- One target-side addition entry: the node to insert (a reused live node or
the raw target node), the reference node captured as
`from.childNodes[fromEnd] ?? null` at build time, and whether the node was a
reused removal candidate (`fromChildNode !== undefined`). -/

structure AddEntry where
  node : Node
  nodeAfter : Option Node
  reused : Bool
deriving DecidableEq, Repr

/-- Resolution of one target-side node of a change region: pop a same-key
removal candidate (`toRemove.get(toChildNodesKeys[nodeIndex])?.shift()`) and
reuse it, or keep the raw target node. -/

def processAddStep (nodeAfter : Option Node)
    (acc : RemovalMap × List (Node × Node) × List AddEntry) (tc : Node) :
    RemovalMap × List (Node × Node) × List AddEntry :=
  let shifted := removalShift acc.1 (nodeKey tc)
  match shifted.1 with
  | some fc =>
    (shifted.2, acc.2.1 ++ [(fc, tc)], acc.2.2 ++ [⟨fc, nodeAfter, true⟩])
  | none => (shifted.2, acc.2.1, acc.2.2 ++ [⟨tc, nodeAfter, false⟩])

/-- One iteration of the second loop, for a consecutive pair of diff entries:
the aligned matched-run pairs between the two entries go to `toMorph`, then
every target-side node of the current change region is resolved. -/

def processRegionStep (f t : Node)
    (acc : RemovalMap × List (Node × Node) × List AddEntry)
    (pr : DiffRegion × DiffRegion) :
    RemovalMap × List (Node × Node) × List AddEntry :=
  let prev := pr.1
  let cur := pr.2
  let aligned :=
    (childSlice f.children prev.fromEnd cur.fromStart).zip
      (childSlice t.children prev.toEnd
        (prev.toEnd + (cur.fromStart - prev.fromEnd)))
  let nodeAfter := f.children.get? cur.fromEnd
  (childSlice t.children cur.toStart cur.toEnd).foldl
    (processAddStep nodeAfter) (acc.1, acc.2.1 ++ aligned, acc.2.2)

/-- Second loop over consecutive diff entries: aligned matched-run pairs go
to `toMorph`; each target-side node of a change region pops a same-key
removal candidate (reusing it) or stays as the raw target node.  Returns the
final queues, the `toMorph` pairs and the `toAdd` entries, in order. -/

def processRegions (f t : Node) (diffList : List DiffRegion) (m0 : RemovalMap) :
    RemovalMap × List (Node × Node) × List AddEntry :=
  (diffList.zip diffList.tail).foldl (processRegionStep f t) (m0, [], [])

/-- `parent.removeChild(node)`: remove the child with the given identity
(the first one, which is the only one when sibling identities are distinct). -/

def removeFirstById : List Node → Nat → List Node
  | [], _ => []
  | c :: cs, i => if c.id = i then cs else c :: removeFirstById cs i

/-- `parent.insertBefore(node, ref)`: take `node` out of its current position
(if it is already a child — this is how the DOM moves reused nodes) and
insert it before `ref`, or append when `ref` is `null`.  (A `ref` that is not
a child would throw in the DOM; it cannot arise from a well-formed diff, and
the model appends in that case.) -/

def insertBeforeRef (children : List Node) (node : Node) (ref : Option Node) :
    List Node :=
  let cs := removeFirstById children node.id
  match ref with
  | none => cs ++ [node]
  | some r => insertBeforeFirst cs r.id node
where
  insertBeforeFirst : List Node → Nat → Node → List Node
    | [], _, n => [n]
    | c :: cs, i, n =>
      if c.id = i then n :: c :: cs else c :: insertBeforeFirst cs i n

/-- Replace the child with the given identity by `v` (used to write back the
result of a recursive `morph` call, which mutates the child in place). -/

def replaceFirstById : List Node → Nat → Node → List Node
  | [], _, _ => []
  | c :: cs, i, v =>
    if c.id = i then v :: cs else c :: replaceFirstById cs i v

/-! ### `morph()` -/

/-- The chained `attribute === "state" || … || attribute === "checked"`
comparisons: the fixed protected-on-push attribute set. -/

def isProtectedAttr (a : String) : Bool :=
  a == "state" || a == "style" || a == "hidden" || a == "open"
    || a == "disabled" || a == "value" || a == "checked"

/-- The iteration order of `new Set([...xs])`: every element at its first
occurrence.  (`seen` accumulates the elements already emitted.) -/

def dedupKeepFirstGo (seen : List String) : List String → List String
  | [] => []
  | x :: xs =>
    if seen.contains x then dedupKeepFirstGo seen xs
    else x :: dedupKeepFirstGo (x :: seen) xs

/-- See `dedupKeepFirstGo`. -/

def dedupKeepFirst (l : List String) : List String := dedupKeepFirstGo [] l

/-- `morph()` skips an attribute when this is a push update, the attribute is
protected, and `!parents(from).some((element) =>
element.liveConnectionUpdate?.has?.(attribute))`. -/

def skipAttr (push : Bool) (parentRef : DomRef) (f : Node) (a : String) : Bool :=
  push && isProtectedAttr a
    && !((parents (.node f parentRef)).any (fun e => lcuHas e a))

/-- The body of the attribute loop, acting on `(from-attributes, trace)`. -/

def morphAttrStep (push : Bool) (parentRef : DomRef) (f t : Node)
    (acc : List (String × String) × List Mutation) (a : String) :
    List (String × String) × List Mutation :=
  if skipAttr push parentRef f a then acc
  else
    match getAttr t.attrs a with
    | none => (removeAttr acc.1 a, acc.2 ++ [Mutation.removeAttribute f.id a])
    | some v =>
      if getAttr acc.1 a ≠ some v then
        (setAttr acc.1 a v, acc.2 ++ [Mutation.setAttribute f.id a v])
      else acc

/-- Attribute reconciliation: for each name of
`new Set([...from.getAttributeNames(), ...to.getAttributeNames()])` (union in
first-occurrence order) — on a push update a protected attribute not pinned
by `parents(from)` is skipped; otherwise it is removed when absent on the
target and set when the values differ.  Returns the new attribute list of
`from` and the trace of attribute mutations. -/

def morphAttributes (push : Bool) (parentRef : DomRef) (f t : Node) :
    List (String × String) × List Mutation :=
  (dedupKeepFirst (f.attrNames ++ t.attrNames)).foldl
    (morphAttrStep push parentRef f t) (f.attrs, [])

/-- Live-property reconciliation: when `from.matches("input, textarea")`, the
run-time `value` and `checked` properties are updated (in that order) unless
this is a push update and `parents(from)` does not pin the property.
Returns the new `value` / `checked` properties and the trace. -/

def morphProperties (push : Bool) (parentRef : DomRef) (f t : Node) :
    String × Bool × List Mutation :=
  if f.tag = "input" ∨ f.tag = "textarea" then
    let pv :=
      if push && !((parents (.node f parentRef)).any (fun e => lcuHas e "value"))
      then (f.valueProp, ([] : List Mutation))
      else if f.valueProp ≠ t.valueProp then
        (t.valueProp, [Mutation.setValueProp f.id t.valueProp])
      else (f.valueProp, [])
    let pc :=
      if push && !((parents (.node f parentRef)).any (fun e => lcuHas e "checked"))
      then (f.checkedProp, ([] : List Mutation))
      else if f.checkedProp ≠ t.checkedProp then
        (t.checkedProp, [Mutation.setCheckedProp f.id t.checkedProp])
      else (f.checkedProp, [])
    (pv.1, pc.1, pv.2 ++ pc.2)
  else (f.valueProp, f.checkedProp, [])

/-- Child reconciliation (steps 3–4 of the algorithm): diff the derived key
sequences, collect removal candidates from all change regions into per-key
queues, resolve the target-side children (reusing queued same-key live nodes
in FIFO order), then apply the removals of the never-reused candidates and
the ordered insertions.  Returns the new (pre-recursion) child list, the
structural mutation trace, and the `toMorph` pairs for step 5. -/

def morphChildren (push : Bool) (f t : Node) :
    List Node × List Mutation × List (Node × Node) :=
  let regions := diffRegions f.children.length t.children.length
    (lcsPairs (f.children.map nodeKey) (t.children.map nodeKey))
  let diffList : List DiffRegion :=
    ⟨0, 0, 0, 0⟩ :: regions
      ++ [⟨f.children.length, f.children.length,
           t.children.length, t.children.length⟩]
  let m0 := collectRemovals push f.children regions
  let proc := processRegions f t diffList m0
  let removed :=
    (removalNodes proc.1).foldl (fun acc node =>
      (removeFirstById acc.1 node.id,
       acc.2 ++ [Mutation.removeChild f.id node.id]))
      (f.children, [])
  let added :=
    proc.2.2.foldl (fun acc e =>
      (insertBeforeRef acc.1 e.node e.nodeAfter,
       acc.2 ++ [Mutation.insertBefore f.id e.node.id (e.nodeAfter.map Node.id)]))
      removed
  (added.1, added.2, proc.2.1)

/-- Step 5 of the algorithm: recursively morph each `toMorph` pair whose live
side is an element (`if (from.nodeType === from.ELEMENT_NODE) morph(from, to,
event)`), writing each result back into the child list in place. -/

def morphRecurse (rec : Node → Node → Node × List Mutation)
    (pairs : List (Node × Node)) (start : List Node × List Mutation) :
    List Node × List Mutation :=
  pairs.foldl (fun acc pr =>
    if pr.1.isElement then
      (replaceFirstById acc.1 pr.1.id (rec pr.1 pr.2).1,
       acc.2 ++ (rec pr.1 pr.2).2)
    else acc) start

/-- `morph(from, to, event)`.  `push` models
`event?.detail?.liveConnectionUpdate` being truthy; `parentRef` is
`from.parentElement`.  The `fuel` argument only bounds the recursion depth
(the source recursion is bounded by the tree height); with `fuel = 0` the
call does nothing.  Returns the new value of `from` and the DOM mutation
trace, in the order the source performs the mutations: attributes,
properties, child removals, child insertions, recursive morphs.  The source
only ever invokes `morph` on element pairs (its recursion is guarded by
`from.nodeType === from.ELEMENT_NODE`, and matched keys imply equal node
types); the leading non-element guard merely totalizes the embedding. -/

def morph : Nat → Bool → DomRef → Node → Node → Node × List Mutation
  | 0, _, _, f, _ => (f, [])
  | fuel + 1, push, parentRef, f, t =>
    if !f.isElement || !t.isElement then (f, [])
    else if push && f.lcuIsOff then (f, [])
    else
      let ra := morphAttributes push parentRef f t
      let rp := morphProperties push parentRef f t
      let rc := morphChildren push f t
      let rr := morphRecurse
        (fun a b => morph fuel push (.node f parentRef) a b) rc.2.2 (rc.1, [])
      (Node.element f.id f.tag ra.1 rp.1 rp.2.1 f.lcu rr.1,
       ra.2 ++ rp.2.2 ++ rc.2.1 ++ rr.2)

/-! ## `documentMount()` -/

/-- Matches `meta[name="version"]`. -/

def isVersionMeta (n : Node) : Bool :=
  n.isElement && n.tag == "meta" && getAttr n.attrs "name" == some "version"

/-- Matches `[key="global-error"]`. -/

def isGlobalError (n : Node) : Bool :=
  n.isElement && getAttr n.attrs "key" == some "global-error"

/-- Matches `body`. -/

def isBody (n : Node) : Bool :=
  n.isElement && n.tag == "body"

mutual

/-- First match in tree order among a list of sibling subtrees. -/
def querySelectorList (p : Node → Bool) : List Node → Option Node
  | [] => none
  | c :: cs =>
    match querySelectorNode p c with
    | some r => some r
    | none => querySelectorList p cs

/-- Pre-order search of a subtree: the node itself, then its descendants. -/
def querySelectorNode (p : Node → Bool) : Node → Option Node
  | .element i tg a v ck l ch =>
    if p (.element i tg a v ck l ch) then some (.element i tg a v ck l ch)
    else querySelectorList p ch
  | .text i v => if p (.text i v) then some (.text i v) else none

end

/-- `document.querySelector(...)` relative to the `html` root: the selectors
used by `documentMount` (`meta[name="version"]`, `[key="global-error"]`,
`body`) never match the `html` element itself, so searching its descendants
is faithful. -/

def querySelector (p : Node → Bool) (root : Node) : Option Node :=
  querySelectorList p root.children

/-- `document.querySelector('meta[name="version"]')?.getAttribute("content")`
collapsed to `Option String`: `some v` exactly when the value is a string
(the element exists and carries the attribute) — the source only tests
`typeof … === "string"` and compares the values. -/

def documentVersionString (root : Node) : Option String :=
  match querySelector isVersionMeta root with
  | none => none
  | some e => getAttr e.attrs "content"

mutual

/-- `root.querySelector(p)?.remove()` on a sibling list: drop the first
matching node in tree order, returning whether one was found. -/
def removeQSList (p : Node → Bool) : List Node → List Node × Bool
  | [] => ([], false)
  | c :: cs =>
    if p c then (cs, true)
    else
      match removeQSNode p c with
      | (c', true) => (c' :: cs, true)
      | (_, false) =>
        match removeQSList p cs with
        | (cs', found) => (c :: cs', found)

/-- Remove the first matching strict descendant of a node. -/
def removeQSNode (p : Node → Bool) : Node → Node × Bool
  | .element i tg a v ck l ch =>
    match removeQSList p ch with
    | (ch', found) => (.element i tg a v ck l ch', found)
  | .text i v => (.text i v, false)

end

/-- `document.querySelector('[key="global-error"]')?.remove()`. -/

def removeGlobalError (root : Node) : Node :=
  (removeQSNode isGlobalError root).1

mutual

/-- Prepend `banner` to the children of the first `body` element in tree
order of a sibling list. -/
def prependToBodyList (banner : Node) : List Node → List Node × Bool
  | [] => ([], false)
  | c :: cs =>
    match prependToBodyNode banner c with
    | (c', true) => (c' :: cs, true)
    | (_, false) =>
      match prependToBodyList banner cs with
      | (cs', found) => (c :: cs', found)

/-- `document.querySelector("body").insertAdjacentHTML("afterbegin", …)`:
find the first `body` in pre-order and prepend the banner to its children. -/
def prependToBodyNode (banner : Node) : Node → Node × Bool
  | .element i tg a v ck l ch =>
    if isBody (.element i tg a v ck l ch) then
      (.element i tg a v ck l (banner :: ch), true)
    else
      match prependToBodyList banner ch with
      | (ch', found) => (.element i tg a v ck l ch', found)
  | .text i v => (.text i v, false)

end

/-- Insert the global-error banner `afterbegin` of the document's `body`. -/

def insertGlobalErrorBanner (root banner : Node) : Node :=
  (prependToBodyNode banner root).1

/-- The live document: the `html` element tree plus the programmatic
`isModified` property of the `html` element
(`document.querySelector("html").isModified`). -/

structure Doc where
  html : Node
  isModifiedProp : Option Bool
deriving DecidableEq, Repr

/-- The banner text of the version-mismatch branch of `documentMount`. -/

def versionErrorMessage : String :=
  "There has been an update. Please reload the page."

/-- The `<div key="global-error">…</div>` element created by
`insertAdjacentHTML`; `freshId` models the allocation of the new DOM node. -/

def globalErrorBanner (freshId : Nat) (message : String) : Node :=
  .element freshId "div" [("key", "global-error")] "" false .unset
    [.text (freshId + 1) message]

/-- `documentMount(content, event)`.  `push` models
`event?.detail?.liveConnectionUpdate` being truthy; `fuel` bounds the morph
recursion depth; `freshId` models DOM node allocation for the banner.
Returns the new document, whether `event` was dispatched on `window`, and
the morph mutation trace.  The `html` element's `parentElement` is `null`,
hence `DomRef.null` for the morph call. -/

def documentMount (fuel freshId : Nat) (doc : Doc) (content : Node)
    (push : Bool) : Doc × Bool × List Mutation :=
  let documentVersion := documentVersionString doc.html
  let contentVersion := documentVersionString content
  if documentVersion.isSome && contentVersion.isSome
      && documentVersion != contentVersion then
    (⟨insertGlobalErrorBanner (removeGlobalError doc.html)
        (globalErrorBanner freshId versionErrorMessage), some false⟩,
     false, [])
  else
    let r := morph fuel push .null doc.html content
    (⟨r.1, doc.isModifiedProp⟩, true, r.2)

/-! ### Idempotence machinery -/

/-- No duplicate identities in a list of ids. -/

def nodupIds : List Nat → Bool
  | [] => true
  | x :: xs => !xs.contains x && nodupIds xs

mutual

/-- Well-formedness of the identity model: within every sibling list, the
node identities are pairwise distinct (true of any real DOM tree, where
identity is object identity). -/
def Node.wf : Node → Bool
  | .element _ _ _ _ _ _ ch => nodupIds (ch.map Node.id) && Node.wfList ch
  | .text _ _ => true

def Node.wfList : List Node → Bool
  | [] => true
  | c :: cs => Node.wf c && Node.wfList cs

end

/-! ### Removal-queue invariants -/

/-- Every node sitting in some queue of the removal map satisfies `P`. -/

def QueueProp (P : Node → Prop) (m : RemovalMap) : Prop :=
  ∀ e ∈ m, ∀ n ∈ e.2, P n

/-! ### FIFO reuse-before-discard machinery -/

/-- The queue for key `k` still holds at least one removal candidate. -/

def queueNonempty (m : RemovalMap) (k : String) : Bool :=
  match List.lookup k m with
  | some (_ :: _) => true
  | _ => false

/-- Every queued node's derived key is the key it is bucketed under. -/

def KeyConsistent (m : RemovalMap) : Prop :=
  ∀ e ∈ m, ∀ n ∈ e.2, nodeKey n = e.1

/-- A JavaScript `Map` never holds two entries with the same key. -/

def removalKeysNodup (m : RemovalMap) : Prop :=
  List.Nodup (m.map Prod.fst)

/-! ## Live Navigation (`liveNavigate`): entry logic -/

/-- The module-level navigation state: the `liveNavigate.abortController`
slot (the cancellation token of the fetch in flight, if any, as an identity)
and the `liveNavigate.inSubmit` flag. -/

structure NavState where
  abortController : Option Nat
  inSubmit : Bool
deriving DecidableEq, Repr

/-- The `event` argument as far as the entry checks are concerned: a
`PopStateEvent` (back/forward), or `undefined` — the intercepted link-click
and form-submission handlers call `liveNavigate(new Request(…))` with no
event. -/

inductive NavEvent where
  | popState
  | undef
deriving DecidableEq, Repr

/-- The outcome of the entry section of `liveNavigate`: either the early
`return` (no fetch issued, no abort, and no unsaved-edits prompt once a
fetch is in flight), or the fetch is issued with a fresh `AbortController`
after aborting `aborted` (if any). -/

inductive NavStart where
  | dropped (s : NavState)
  | fetching (aborted : Option Nat) (s : NavState)
deriving DecidableEq, Repr

/-- The entry logic of `liveNavigate(request, event)`:

```
if (event instanceof PopStateEvent) liveNavigate.abortController?.abort();
else if (
  liveNavigate.abortController !== undefined ||
  (!liveNavigate.inSubmit &&
    isModified(document.querySelector("html")) &&
    !confirm("Your changes will be lost if you continue."))
)
  return;
…
liveNavigate.abortController = new AbortController();
```

`docIsModified` models `isModified(document.querySelector("html"))`,
`confirmOk` the result of `confirm(…)` (only consulted when the short-circuit
reaches it), and `newToken` the fresh `AbortController`. -/

def liveNavigateStart (s : NavState) (ev : NavEvent)
    (docIsModified confirmOk : Bool) (newToken : Nat) : NavStart :=
  match ev with
  | .popState =>
    .fetching s.abortController { s with abortController := some newToken }
  | .undef =>
    if s.abortController ≠ none then .dropped s
    else if !s.inSubmit && docIsModified && !confirmOk then .dropped s
    else .fetching none { s with abortController := some newToken }

/-! ## Live Connection (`liveConnection`): one connection attempt -/

/-- Split a character sequence at newlines (the pieces between `'\n'`s,
including empty ones). -/

def splitOnNewline : List Char → List (List Char)
  | [] => [[]]
  | c :: cs =>
    if c = '\n' then [] :: splitOnNewline cs
    else
      match splitOnNewline cs with
      | [] => [[c]]
      | line :: rest => (c :: line) :: rest

/-- Modelled from the spec: `JSONLinesTransformStream` (the `utilities`
package's stream decoder; its source is not part of this snapshot, only its
tests).  Per the spec, the response body is decoded as a sequence of
newline-delimited records; the package's tests show blank lines produce no
record.  Records are kept as their decoded strings. -/

def jsonLinesRecords (body : String) : List String :=
  ((splitOnNewline body.toList).map (fun l => String.mk l)).filter
    (fun l => l ≠ "")

/-- The read loop of a connection attempt:

```
while (true) {
  const responseText = (await responseBodyReader.read()).value;
  if (responseText === undefined) break;
  documentMount(responseText, new CustomEvent("DOMContentLoaded",
    { detail: { liveConnectionUpdate: true } }));
}
```

The reader is modelled as the list of decoded records (`read()` yields them
in order, then `undefined`); the result lists the `documentMount` calls in
order, each paired with the `liveConnectionUpdate: true` flag of the event
it receives. -/

def liveConnectionReadLoop : List String → List (String × Bool)
  | [] => []
  | record :: rest => (record, true) :: liveConnectionReadLoop rest

/-- What one connection attempt of `liveConnection`'s background job does. -/

inductive AttemptOutcome where
  | failedToConnect (bannerMessage : String)
  | reloaded
  | streamed (mounts : List (String × Bool))
deriving DecidableEq, Repr

/-- The text of the `key="global-error"` banner of a failed attempt. -/

def failedToConnectMessage (reload : Bool) : String :=
  if reload then "Reloading…"
  else "Failed to connect. Please check your internet connection and try reloading the page."

/-- One connection attempt: `if (response.status !== 200) throw response;`
lands in the catch block (`connected` is still `false`) which shows the
failure banner; on a 200 with `reloadOnConnect` pending the page is reloaded
instead of consuming the stream; otherwise the newline-delimited records of
the body are read in a loop, each passed to `documentMount` flagged as a
Live Connection update. -/

def liveConnectionAttempt (reload : Bool) (status : Nat)
    (reloadOnConnect : Bool) (body : String) : AttemptOutcome :=
  if status ≠ 200 then .failedToConnect (failedToConnectMessage reload)
  else if reloadOnConnect then .reloaded
  else .streamed (liveConnectionReadLoop (jsonLinesRecords body))

/-! ## Theorems -/

theorem jobStep_preserves_wf (s : BackgroundJob) (e : JobEvent) (h : JobWF s) :
    JobWF (jobStep s e).1 := by
  cases e <;> simp only [jobStep, startRun, JobWF] at *
  · split <;> simp_all
  · split <;> simp_all
  · rcases s with ⟨st, tp, tz⟩
    cases st <;> simp_all
  · intro htp
    by_cases hs : s.state = .sleeping <;> simp_all

theorem jobRun_shift (t : BackgroundJob) (k : Nat) (gs : List JobEvent) :
    gs.foldl (fun acc e => ((jobStep acc.1 e).1, acc.2 + (jobStep acc.1 e).2)) (t, k)
      = ((jobRun t gs).1, k + (jobRun t gs).2) := by
  induction gs generalizing t k with
  | nil => simp [jobRun]
  | cons g gs ihg =>
    simp only [jobRun, List.foldl_cons, Nat.zero_add] at *
    rw [ihg, ihg (jobStep t g).1 (jobStep t g).2, Nat.add_assoc]

theorem jobRun_cons (s : BackgroundJob) (e : JobEvent) (es : List JobEvent) :
    jobRun s (e :: es) =
      ((jobRun (jobStep s e).1 es).1,
        (jobStep s e).2 + (jobRun (jobStep s e).1 es).2) := by
  simp only [jobRun, List.foldl_cons, Nat.zero_add]
  rw [jobRun_shift]
  simp [jobRun]

theorem jobRun_append (s : BackgroundJob) (es fs : List JobEvent) :
    jobRun s (es ++ fs) =
      ((jobRun (jobRun s es).1 fs).1,
        (jobRun s es).2 + (jobRun (jobRun s es).1 fs).2) := by
  induction es generalizing s with
  | nil => simp [jobRun]
  | cons e es ih =>
    rw [List.cons_append, jobRun_cons, jobRun_cons, ih]
    simp [Nat.add_assoc]

/-- Repeated external `run()` calls while the job is marked for rerun are
no-ops (the `switch` has no case for `"runningAndMarkedForRerun"`). -/

theorem jobStep_runCall_marked (s : BackgroundJob)
    (h : s.state = .runningAndMarkedForRerun) :
    jobStep s .runCall = (s, 0) := by
  simp [jobStep, h]

theorem jobRun_replicate_runCall (n : Nat) (s : BackgroundJob)
    (hs : s.state = .running) :
    jobRun s (List.replicate (n + 1) .runCall) =
      ({ s with state := .runningAndMarkedForRerun }, 0) := by
  induction n with
  | zero => simp [jobRun, jobStep, hs]
  | succ m ih =>
    have : List.replicate (m + 1 + 1) JobEvent.runCall
        = List.replicate (m + 1) JobEvent.runCall ++ [JobEvent.runCall] := by
      rw [← List.replicate_succ']
    rw [this, jobRun_append, ih]
    simp [jobRun, jobStep]

theorem jobStep_stopped (s : BackgroundJob) (h : JobStopped s) (e : JobEvent) :
    JobStopped (jobStep s e).1 ∧ (jobStep s e).2 = 0 := by
  obtain ⟨h1, h2⟩ := h
  cases e <;> simp_all [jobStep, JobStopped, startRun]

theorem jobRun_stopped (s : BackgroundJob) (h : JobStopped s)
    (es : List JobEvent) :
    JobStopped (jobRun s es).1 ∧ (jobRun s es).2 = 0 := by
  induction es generalizing s with
  | nil => simpa [jobRun]
  | cons e es ih =>
    rw [jobRun_cons]
    obtain ⟨hs, hk⟩ := jobStep_stopped s h e
    obtain ⟨hs', hk'⟩ := ih (jobStep s e).1 hs
    exact ⟨hs', by omega⟩

/-- C6: while the unit of work is executing (`state = "running"`), any
positive number of `run()` calls results in the state
`"runningAndMarkedForRerun"` and starts no execution; when the in-flight
execution completes, exactly one rerun is scheduled, with zero delay; when
that timer fires, exactly one execution of the unit of work starts.  And a
`run()` call while the job is sleeping cancels the pending timer and invokes
the unit of work immediately. -/

theorem backgroundJob_run_coalesces (n : Nat) (h : 1 ≤ n) (s : BackgroundJob)
    (hs : s.state = .running) :
    (jobRun s (List.replicate n .runCall)).1.state = .runningAndMarkedForRerun
    ∧ (jobRun s (List.replicate n .runCall)).2 = 0
    ∧ (jobStep (jobRun s (List.replicate n .runCall)).1 .jobComplete)
        = (⟨.sleeping, true, true⟩, 0)
    ∧ (jobStep (⟨.sleeping, true, true⟩ : BackgroundJob) .timerFire).2 = 1
    ∧ ∀ t : BackgroundJob, t.state = .sleeping →
        jobStep t .runCall = (⟨.running, false, false⟩, 1) := by
  obtain ⟨m, rfl⟩ : ∃ m, n = m + 1 := ⟨n - 1, by omega⟩
  rw [jobRun_replicate_runCall m s hs]
  refine ⟨rfl, rfl, by simp [jobStep], rfl, ?_⟩
  intro t ht
  rcases t with ⟨st, tp, tz⟩
  simp only at ht
  subst ht
  rfl

theorem backgroundJob_run_coalesces_witness :
    (jobRun ⟨.running, false, false⟩ (List.replicate 3 .runCall)).1.state
        = .runningAndMarkedForRerun
    ∧ (jobRun ⟨.running, false, false⟩ (List.replicate 3 .runCall)).2 = 0 :=
  ⟨(backgroundJob_run_coalesces 3 (by decide) ⟨.running, false, false⟩ rfl).1,
   (backgroundJob_run_coalesces 3 (by decide) ⟨.running, false, false⟩ rfl).2.1⟩

/-- C7: `stop()` cancels any pending timer and moves to `"stopped"` without
invoking the unit of work; afterwards, no sequence of events — further
`run()` calls, the completion of an execution that was already in flight (it
does not reschedule), timer fires, further `stop()` calls — ever starts
another execution of the unit of work. -/

theorem backgroundJob_stop_terminal (s : BackgroundJob) (hwf : JobWF s)
    (es : List JobEvent) :
    JobStopped (jobStep s .stopCall).1 ∧ (jobStep s .stopCall).2 = 0
    ∧ (jobRun (jobStep s .stopCall).1 es).2 = 0
    ∧ JobStopped (jobRun (jobStep s .stopCall).1 es).1 := by
  have hstop : JobStopped (jobStep s .stopCall).1 := by
    constructor
    · simp [jobStep]
    · simp only [jobStep]
      by_cases hsl : s.state = .sleeping
      · simp [hsl]
      · have : s.timerPending = false := by
          by_contra hb
          exact hsl (hwf (by simpa using hb))
        simp [hsl, this]
  obtain ⟨h1, h2⟩ := jobRun_stopped _ hstop es
  exact ⟨hstop, rfl, h2, h1⟩

theorem backgroundJob_stop_terminal_witness :
    JobStopped (jobStep ⟨.sleeping, true, false⟩ .stopCall).1
    ∧ (jobRun (jobStep ⟨.sleeping, true, false⟩ .stopCall).1
        [.runCall, .timerFire, .jobComplete, .runCall]).2 = 0 :=
  ⟨(backgroundJob_stop_terminal ⟨.sleeping, true, false⟩ (fun _ => rfl)
      [.runCall, .timerFire, .jobComplete, .runCall]).1,
   (backgroundJob_stop_terminal ⟨.sleeping, true, false⟩ (fun _ => rfl)
      [.runCall, .timerFire, .jobComplete, .runCall]).2.2.1⟩

/-! ### Attribute-list lemmas -/

theorem getAttr_setAttr_self (attrs : List (String × String)) (name value : String) :
    getAttr (setAttr attrs name value) name = some value := by
  induction attrs with
  | nil => simp [setAttr, getAttr]
  | cons p rest ih =>
    rcases p with ⟨pn, pv⟩
    by_cases h : pn = name
    · subst h
      simp [setAttr, getAttr]
    · simp [setAttr, getAttr, h, ih]

theorem getAttr_setAttr_ne (attrs : List (String × String)) (n name value : String)
    (h : n ≠ name) :
    getAttr (setAttr attrs name value) n = getAttr attrs n := by
  induction attrs with
  | nil => simp [setAttr, getAttr, Ne.symm h]
  | cons p rest ih =>
    rcases p with ⟨pn, pv⟩
    by_cases hp : pn = name
    · subst hp
      simp [setAttr, getAttr, Ne.symm h]
    · simp [setAttr, getAttr, hp, ih]

theorem getAttr_removeAttr_self (attrs : List (String × String)) (name : String) :
    getAttr (removeAttr attrs name) name = none := by
  induction attrs with
  | nil => simp [removeAttr, getAttr]
  | cons p rest ih =>
    rcases p with ⟨pn, pv⟩
    simp only [removeAttr, List.filter_cons] at ih ⊢
    by_cases h : pn = name
    · simpa [h] using ih
    · simpa [h, getAttr] using ih

theorem getAttr_removeAttr_ne (attrs : List (String × String)) (n name : String)
    (h : n ≠ name) :
    getAttr (removeAttr attrs name) n = getAttr attrs n := by
  induction attrs with
  | nil => simp [removeAttr, getAttr]
  | cons p rest ih =>
    rcases p with ⟨pn, pv⟩
    simp only [removeAttr, List.filter_cons, ne_eq, decide_not] at ih ⊢
    by_cases hp : pn = name
    · subst hp
      simpa [getAttr, Ne.symm h] using ih
    · simp [hp, getAttr, ih]

theorem getAttr_eq_none_of_not_mem (attrs : List (String × String)) (a : String)
    (h : a ∉ attrs.map Prod.fst) :
    getAttr attrs a = none := by
  induction attrs with
  | nil => rfl
  | cons p rest ih =>
    rcases p with ⟨pn, pv⟩
    simp only [List.map_cons, List.mem_cons, not_or] at h
    have hpn : ¬pn = a := fun he => h.1 he.symm
    simp [getAttr, hpn, ih h.2]

theorem getAttr_isSome_of_mem (attrs : List (String × String)) (a : String)
    (h : a ∈ attrs.map Prod.fst) :
    (getAttr attrs a).isSome = true := by
  induction attrs with
  | nil => simp at h
  | cons p rest ih =>
    rcases p with ⟨pn, pv⟩
    by_cases hp : pn = a
    · simp [getAttr, hp]
    · simp only [List.map_cons, List.mem_cons] at h
      rcases h with h | h
      · exact absurd h.symm hp
      · simp [getAttr, hp, ih h]

theorem mem_dedupKeepFirstGo (l : List String) :
    ∀ (seen : List String) (a : String),
      a ∈ dedupKeepFirstGo seen l ↔ a ∈ l ∧ a ∉ seen := by
  induction l with
  | nil =>
    intro seen a
    simp [dedupKeepFirstGo]
  | cons x xs ih =>
    intro seen a
    rw [dedupKeepFirstGo]
    by_cases hx : seen.contains x = true
    · have hxmem : x ∈ seen := by simpa using hx
      rw [if_pos hx, ih]
      constructor
      · rintro ⟨h1, h2⟩
        exact ⟨List.mem_cons_of_mem _ h1, h2⟩
      · rintro ⟨h1, h2⟩
        rcases List.mem_cons.mp h1 with h | h
        · exact absurd (h ▸ hxmem) h2
        · exact ⟨h, h2⟩
    · have hxmem : x ∉ seen := by simpa using hx
      rw [if_neg hx]
      constructor
      · intro h
        rcases List.mem_cons.mp h with h | h
        · subst h
          exact ⟨List.mem_cons_self _ _, hxmem⟩
        · obtain ⟨h1, h2⟩ := (ih (x :: seen) a).mp h
          exact ⟨List.mem_cons_of_mem _ h1,
            fun hs => h2 (List.mem_cons_of_mem _ hs)⟩
      · rintro ⟨h1, h2⟩
        rcases List.mem_cons.mp h1 with h | h
        · subst h
          exact List.mem_cons_self _ _
        · by_cases hax : a = x
          · subst hax
            exact List.mem_cons_self _ _
          · refine List.mem_cons_of_mem _ ((ih (x :: seen) a).mpr ⟨h, ?_⟩)
            simp [List.mem_cons, hax, h2]

theorem mem_dedupKeepFirst (l : List String) (a : String) :
    a ∈ dedupKeepFirst l ↔ a ∈ l := by
  unfold dedupKeepFirst
  rw [mem_dedupKeepFirstGo]
  simp

/-- The attribute loop, pointwise: an attribute that the loop's push-update
protection skips keeps its `from` value; any other attribute in the union of
the names ends up with its `to` value (removed when the target lacks it);
attributes outside the union are untouched. -/

theorem foldAttr_getAttr (push : Bool) (ref : DomRef) (f t : Node)
    (ns : List String) (attrs0 : List (String × String)) (tr0 : List Mutation)
    (a : String) :
    getAttr ((ns.foldl (morphAttrStep push ref f t) (attrs0, tr0)).1) a
      = if a ∈ ns ∧ skipAttr push ref f a = false then getAttr t.attrs a
        else getAttr attrs0 a := by
  induction ns generalizing attrs0 tr0 with
  | nil => simp
  | cons n ns ih =>
    rw [List.foldl_cons]
    by_cases hskip : skipAttr push ref f n = true
    · have hstep : morphAttrStep push ref f t (attrs0, tr0) n = (attrs0, tr0) := by
        simp [morphAttrStep, hskip]
      rw [hstep, ih]
      by_cases han : a = n
      · subst han
        have hfalse : ∀ P : Prop, ¬(P ∧ skipAttr push ref f a = false) := by
          intro P hc
          rw [hskip] at hc
          exact absurd hc.2 (by simp)
        rw [if_neg (hfalse _), if_neg (hfalse _)]
      · by_cases hin : a ∈ ns ∧ skipAttr push ref f a = false
        · rw [if_pos hin, if_pos ⟨List.mem_cons_of_mem _ hin.1, hin.2⟩]
        · rw [if_neg hin,
            if_neg (fun hc => hin ⟨(List.mem_cons.mp hc.1).resolve_left han, hc.2⟩)]
    · rw [Bool.not_eq_true] at hskip
      have hstep1 : ∀ acc : List (String × String) × List Mutation,
          getAttr (morphAttrStep push ref f t acc n).1 n = getAttr t.attrs n := by
        intro acc
        simp only [morphAttrStep, hskip, Bool.false_eq_true, if_false]
        match hta : getAttr t.attrs n with
        | none => simp [getAttr_removeAttr_self]
        | some v =>
          by_cases hacc : getAttr acc.1 n ≠ some v
          · simp [hacc, getAttr_setAttr_self]
          · push_neg at hacc
            simp [hacc]
      have hstep2 : ∀ acc : List (String × String) × List Mutation, a ≠ n →
          getAttr (morphAttrStep push ref f t acc n).1 a = getAttr acc.1 a := by
        intro acc han
        simp only [morphAttrStep, hskip, Bool.false_eq_true, if_false]
        match hta : getAttr t.attrs n with
        | none => simp [getAttr_removeAttr_ne _ _ _ han]
        | some v =>
          by_cases hacc : getAttr acc.1 n ≠ some v
          · simp [hacc, getAttr_setAttr_ne _ _ _ _ han]
          · simp [hacc]
      rw [ih]
      by_cases han : a = n
      · subst han
        by_cases hin : a ∈ ns ∧ skipAttr push ref f a = false
        · rw [if_pos hin, if_pos ⟨List.mem_cons_self a ns, hskip⟩]
        · rw [if_neg hin, if_pos ⟨List.mem_cons_self a ns, hskip⟩]
          exact hstep1 _
      · by_cases hin : a ∈ ns ∧ skipAttr push ref f a = false
        · rw [if_pos hin, if_pos ⟨List.mem_cons_of_mem _ hin.1, hin.2⟩]
        · rw [if_neg hin,
            if_neg (fun hc => hin ⟨(List.mem_cons.mp hc.1).resolve_left han, hc.2⟩)]
          exact hstep2 _ han

/-- `morphAttributes`, pointwise. -/

theorem morphAttributes_getAttr (push : Bool) (ref : DomRef) (f t : Node)
    (a : String) :
    getAttr (morphAttributes push ref f t).1 a
      = if (a ∈ f.attrNames ∨ a ∈ t.attrNames) ∧ skipAttr push ref f a = false
        then getAttr t.attrs a
        else getAttr f.attrs a := by
  unfold morphAttributes
  rw [foldAttr_getAttr]
  by_cases hmem : (a ∈ f.attrNames ∨ a ∈ t.attrNames)
      ∧ skipAttr push ref f a = false
  · rw [if_pos ⟨(mem_dedupKeepFirst _ _).mpr (List.mem_append.mpr hmem.1), hmem.2⟩,
      if_pos hmem]
  · rw [if_neg
        (fun hc => hmem ⟨List.mem_append.mp ((mem_dedupKeepFirst _ _).mp hc.1), hc.2⟩),
      if_neg hmem]

/-! ### Property-reconciliation lemmas -/

theorem morphProperties_value (push : Bool) (ref : DomRef) (f t : Node) :
    (morphProperties push ref f t).1
      = if f.tag = "input" ∨ f.tag = "textarea" then
          (if push && !((parents (.node f ref)).any (fun e => lcuHas e "value"))
           then f.valueProp else t.valueProp)
        else f.valueProp := by
  unfold morphProperties
  by_cases htag : f.tag = "input" ∨ f.tag = "textarea"
  · rw [if_pos htag, if_pos htag]
    by_cases hskip :
        (push && !((parents (.node f ref)).any (fun e => lcuHas e "value"))) = true
    · simp [hskip]
    · rw [Bool.not_eq_true] at hskip
      simp only [hskip, Bool.false_eq_true, if_false]
      by_cases hne : f.valueProp ≠ t.valueProp
      · simp [hne]
      · push_neg at hne
        simp [hne]
  · rw [if_neg htag, if_neg htag]

theorem morphProperties_checked (push : Bool) (ref : DomRef) (f t : Node) :
    (morphProperties push ref f t).2.1
      = if f.tag = "input" ∨ f.tag = "textarea" then
          (if push && !((parents (.node f ref)).any (fun e => lcuHas e "checked"))
           then f.checkedProp else t.checkedProp)
        else f.checkedProp := by
  unfold morphProperties
  by_cases htag : f.tag = "input" ∨ f.tag = "textarea"
  · rw [if_pos htag, if_pos htag]
    by_cases hskip :
        (push && !((parents (.node f ref)).any (fun e => lcuHas e "checked"))) = true
    · simp [hskip]
    · rw [Bool.not_eq_true] at hskip
      simp only [hskip, Bool.false_eq_true, if_false]
      by_cases hne : f.checkedProp ≠ t.checkedProp
      · simp [hne]
      · push_neg at hne
        simp [hne]
  · rw [if_neg htag, if_neg htag]

/-! ### `morph` projection lemmas -/

theorem morph_fst_id (fuel : Nat) (push : Bool) (ref : DomRef) (f t : Node) :
    (morph fuel push ref f t).1.id = f.id := by
  match fuel with
  | 0 => rfl
  | fuel + 1 =>
    rw [morph]
    by_cases h1 : (!f.isElement || !t.isElement) = true
    · simp [h1]
    · by_cases h2 : (push && f.lcuIsOff) = true
      · simp [h1, h2]
      · simp [h1, h2, Node.id]

theorem morph_succ_attrs (fuel : Nat) (push : Bool) (ref : DomRef) (f t : Node)
    (hf : f.isElement = true) (ht : t.isElement = true)
    (hoff : (push && f.lcuIsOff) = false) :
    (morph (fuel + 1) push ref f t).1.attrs = (morphAttributes push ref f t).1 := by
  rw [morph]
  simp [hf, ht, hoff, Node.attrs]

theorem morph_succ_valueProp (fuel : Nat) (push : Bool) (ref : DomRef) (f t : Node)
    (hf : f.isElement = true) (ht : t.isElement = true)
    (hoff : (push && f.lcuIsOff) = false) :
    (morph (fuel + 1) push ref f t).1.valueProp
      = (morphProperties push ref f t).1 := by
  rw [morph]
  simp [hf, ht, hoff, Node.valueProp]

theorem morph_succ_checkedProp (fuel : Nat) (push : Bool) (ref : DomRef) (f t : Node)
    (hf : f.isElement = true) (ht : t.isElement = true)
    (hoff : (push && f.lcuIsOff) = false) :
    (morph (fuel + 1) push ref f t).1.checkedProp
      = (morphProperties push ref f t).2.1 := by
  rw [morph]
  simp [hf, ht, hoff, Node.checkedProp]

/-- C2: during a push update every attribute of the fixed protected set
`{state, style, hidden, open, disabled, value, checked}` — and the run-time
`value` / `checked` properties — is left unchanged on the live element unless
some element of `parents(from)` (an ancestor, or the element itself) has a
`liveConnectionUpdate` set naming it; in a non-push morph the protected
attributes are reconciled to the target (removed when absent on the target,
set when the values differ) like any other attribute, and the `value` /
`checked` properties of an `input` / `textarea` are set to the target's. -/

theorem morph_push_protected_attrs (fuel : Nat) (ref : DomRef) (f t : Node)
    (hf : f.isElement = true) (ht : t.isElement = true) :
    (∀ a, isProtectedAttr a = true →
      (parents (.node f ref)).any (fun e => lcuHas e a) = false →
      getAttr (morph (fuel + 1) true ref f t).1.attrs a = getAttr f.attrs a)
    ∧ ((parents (.node f ref)).any (fun e => lcuHas e "value") = false →
      (morph (fuel + 1) true ref f t).1.valueProp = f.valueProp)
    ∧ ((parents (.node f ref)).any (fun e => lcuHas e "checked") = false →
      (morph (fuel + 1) true ref f t).1.checkedProp = f.checkedProp)
    ∧ (∀ a, getAttr (morph (fuel + 1) false ref f t).1.attrs a = getAttr t.attrs a)
    ∧ ((f.tag = "input" ∨ f.tag = "textarea") →
      (morph (fuel + 1) false ref f t).1.valueProp = t.valueProp
      ∧ (morph (fuel + 1) false ref f t).1.checkedProp = t.checkedProp) := by
  have hoffF : (false && f.lcuIsOff) = false := by simp
  have hnp_attr :
      ∀ a, getAttr (morph (fuel + 1) false ref f t).1.attrs a = getAttr t.attrs a := by
    intro a
    rw [morph_succ_attrs fuel false ref f t hf ht hoffF, morphAttributes_getAttr]
    have hskip : skipAttr false ref f a = false := by simp [skipAttr]
    by_cases hmem : a ∈ f.attrNames ∨ a ∈ t.attrNames
    · rw [if_pos ⟨hmem, hskip⟩]
    · rw [if_neg (fun hc => hmem hc.1)]
      push_neg at hmem
      rw [getAttr_eq_none_of_not_mem _ _ hmem.1,
        getAttr_eq_none_of_not_mem _ _ hmem.2]
  have hnp_props : (f.tag = "input" ∨ f.tag = "textarea") →
      (morph (fuel + 1) false ref f t).1.valueProp = t.valueProp
      ∧ (morph (fuel + 1) false ref f t).1.checkedProp = t.checkedProp := by
    intro htag
    constructor
    · rw [morph_succ_valueProp fuel false ref f t hf ht hoffF,
        morphProperties_value]
      simp [htag]
    · rw [morph_succ_checkedProp fuel false ref f t hf ht hoffF,
        morphProperties_checked]
      simp [htag]
  by_cases hoff : f.lcuIsOff = true
  · have hm : morph (fuel + 1) true ref f t = (f, []) := by
      rw [morph]
      simp [hf, ht, hoff]
    exact ⟨fun a _ _ => by rw [hm], fun _ => by rw [hm], fun _ => by rw [hm],
      hnp_attr, hnp_props⟩
  · rw [Bool.not_eq_true] at hoff
    have hoffT : (true && f.lcuIsOff) = false := by simp [hoff]
    refine ⟨?_, ?_, ?_, hnp_attr, hnp_props⟩
    · intro a hprot hany
      rw [morph_succ_attrs fuel true ref f t hf ht hoffT, morphAttributes_getAttr]
      have hskipT : skipAttr true ref f a = true := by
        simp [skipAttr, hprot, hany]
      rw [if_neg (fun hc => by rw [hskipT] at hc; exact absurd hc.2 (by simp))]
    · intro hany
      rw [morph_succ_valueProp fuel true ref f t hf ht hoffT, morphProperties_value]
      simp [hany]
    · intro hany
      rw [morph_succ_checkedProp fuel true ref f t hf ht hoffT,
        morphProperties_checked]
      simp [hany]

theorem morph_push_protected_attrs_witness :
    getAttr (morph 1 true DomRef.null
        (Node.element 1 "input" [("value", "old")] "old" false .unset [])
        (Node.element 2 "input" [("value", "new")] "new" false .unset [])).1.attrs
        "value" = some "old"
    ∧ (morph 1 true DomRef.null
        (Node.element 1 "input" [("value", "old")] "old" false .unset [])
        (Node.element 2 "input" [("value", "new")] "new" false .unset [])).1.valueProp
        = "old"
    ∧ getAttr (morph 1 false DomRef.null
        (Node.element 1 "input" [("value", "old")] "old" false .unset [])
        (Node.element 2 "input" [("value", "new")] "new" false .unset [])).1.attrs
        "value" = some "new"
    ∧ (morph 1 false DomRef.null
        (Node.element 1 "input" [("value", "old")] "old" false .unset [])
        (Node.element 2 "input" [("value", "new")] "new" false .unset [])).1.valueProp
        = "new" := by
  have h := morph_push_protected_attrs 0 DomRef.null
    (Node.element 1 "input" [("value", "old")] "old" false .unset [])
    (Node.element 2 "input" [("value", "new")] "new" false .unset []) rfl rfl
  exact ⟨(h.1 "value" (by decide) (by decide)).trans rfl,
    (h.2.1 (by decide)).trans rfl,
    (h.2.2.2.1 "value").trans rfl,
    ((h.2.2.2.2 (Or.inl rfl)).1).trans rfl⟩

/-- C10: `parents(element)` returns the element itself followed by its
ancestors; consequently, during a push update an element whose own
`liveConnectionUpdate` is a `Set` naming a protected attribute (or the
`value` / `checked` property) has that attribute (or property) updated to the
target's value on itself, with no proper ancestor required to pin it. -/

theorem parents_includes_self (fuel : Nat) (ref : DomRef) (f t : Node)
    (S : List String) (hf : f.isElement = true) (ht : t.isElement = true)
    (hlcu : f.lcu = .allow S) :
    (∀ (e : Node) (p : DomRef), parents (.node e p) = e :: parents p)
    ∧ (∀ a, a ∈ S →
        getAttr (morph (fuel + 1) true ref f t).1.attrs a = getAttr t.attrs a)
    ∧ ("value" ∈ S → (f.tag = "input" ∨ f.tag = "textarea") →
        (morph (fuel + 1) true ref f t).1.valueProp = t.valueProp)
    ∧ ("checked" ∈ S → (f.tag = "input" ∨ f.tag = "textarea") →
        (morph (fuel + 1) true ref f t).1.checkedProp = t.checkedProp) := by
  have hoffT : (true && f.lcuIsOff) = false := by
    simp [Node.lcuIsOff, hlcu]
  have hpin : ∀ a, a ∈ S →
      (parents (.node f ref)).any (fun e => lcuHas e a) = true := by
    intro a ha
    refine List.any_eq_true.mpr ⟨f, ?_, ?_⟩
    · simp [parents]
    · simp [lcuHas, hlcu, ha]
  refine ⟨fun e p => rfl, ?_, ?_, ?_⟩
  · intro a ha
    rw [morph_succ_attrs fuel true ref f t hf ht hoffT, morphAttributes_getAttr]
    have hskip : skipAttr true ref f a = false := by
      simp [skipAttr, hpin a ha]
    by_cases hmem : a ∈ f.attrNames ∨ a ∈ t.attrNames
    · rw [if_pos ⟨hmem, hskip⟩]
    · rw [if_neg (fun hc => hmem hc.1)]
      push_neg at hmem
      rw [getAttr_eq_none_of_not_mem _ _ hmem.1,
        getAttr_eq_none_of_not_mem _ _ hmem.2]
  · intro hv htag
    rw [morph_succ_valueProp fuel true ref f t hf ht hoffT, morphProperties_value]
    simp [htag, hpin "value" hv]
  · intro hv htag
    rw [morph_succ_checkedProp fuel true ref f t hf ht hoffT,
      morphProperties_checked]
    simp [htag, hpin "checked" hv]

theorem wfList_mem (ch : List Node) (h : Node.wfList ch = true) :
    ∀ c ∈ ch, c.wf = true := by
  induction ch with
  | nil => intro c hc; simp at hc
  | cons x xs ih =>
    rw [Node.wfList, Bool.and_eq_true] at h
    intro c hc
    rcases List.mem_cons.mp hc with hc | hc
    · exact hc ▸ h.1
    · exact ih h.2 c hc

theorem wf_children (T : Node) (h : T.wf = true) :
    nodupIds (T.children.map Node.id) = true ∧ ∀ c ∈ T.children, c.wf = true := by
  match T with
  | .text i v => exact ⟨rfl, by intro c hc; simp [Node.children] at hc⟩
  | .element i tg a v ck l ch =>
    rw [Node.wf, Bool.and_eq_true] at h
    exact ⟨h.1, wfList_mem ch h.2⟩

theorem replaceFirstById_self (ch : List Node) (c : Node)
    (hnd : nodupIds (ch.map Node.id) = true) (hc : c ∈ ch) :
    replaceFirstById ch c.id c = ch := by
  induction ch with
  | nil => rfl
  | cons x xs ih =>
    rw [List.map_cons, nodupIds, Bool.and_eq_true] at hnd
    have hxid : x.id ∉ xs.map Node.id := by
      have hcont := hnd.1
      rw [Bool.not_eq_true'] at hcont
      simpa using hcont
    by_cases hx : x.id = c.id
    · have : c = x := by
        rcases List.mem_cons.mp hc with h | h
        · exact h
        · exfalso
          have hmem : c.id ∈ xs.map Node.id := List.mem_map_of_mem Node.id h
          rw [← hx] at hmem
          exact hxid hmem
      rw [replaceFirstById, if_pos hx, this]
    · have hcx : c ∈ xs := by
        rcases List.mem_cons.mp hc with h | h
        · subst h
          exact absurd rfl hx
        · exact h
      rw [replaceFirstById, if_neg hx, ih hnd.2 hcx]

theorem childSlice_full (ch : List Node) : childSlice ch 0 ch.length = ch := by
  simp [childSlice]

theorem childSlice_empty (ch : List Node) (n : Nat) : childSlice ch n n = [] := by
  simp [childSlice]

theorem lcsPairsF_self (fuel : Nat) :
    ∀ ks : List String, ks.length ≤ fuel →
      lcsPairsF fuel ks ks = (List.range ks.length).map (fun i => (i, i)) := by
  induction fuel with
  | zero =>
    intro ks h
    have : ks = [] := List.eq_nil_of_length_eq_zero (Nat.le_zero.mp h)
    subst this
    rfl
  | succ n ih =>
    intro ks h
    match ks with
    | [] => rfl
    | x :: xs =>
      rw [lcsPairsF]
      simp only [if_pos rfl]
      rw [ih xs (Nat.le_of_succ_le_succ h)]
      rw [List.length_cons, List.range_succ_eq_map]
      simp [List.map_map, Function.comp]

theorem lcsPairs_self (ks : List String) :
    lcsPairs ks ks = (List.range ks.length).map (fun i => (i, i)) :=
  lcsPairsF_self (ks.length + ks.length) ks (by omega)

theorem diffRegionsGo_diag (n : Nat) :
    ∀ (k i : Nat), i + k = n →
      diffRegionsGo n n i i ((List.range k).map (fun j => (i + j, i + j))) = [] := by
  intro k
  induction k with
  | zero =>
    intro i h
    rw [List.range_zero, List.map_nil, diffRegionsGo]
    have hn : ¬(i < n ∨ i < n) := by omega
    rw [if_neg hn]
  | succ m ih =>
    intro i h
    rw [List.range_succ_eq_map, List.map_cons, List.map_map]
    rw [diffRegionsGo]
    have h0 : ¬(i < i + 0 ∨ i < i + 0) := by omega
    rw [if_neg h0, List.nil_append]
    have hmap : (List.range m).map ((fun j => (i + j, i + j)) ∘ Nat.succ)
        = (List.range m).map (fun j => ((i + 0 + 1) + j, (i + 0 + 1) + j)) :=
      List.map_congr_left (fun a _ => by
        simp only [Function.comp, Prod.mk.injEq]
        omega)
    rw [hmap]
    exact ih (i + 0 + 1) (by omega)

theorem foldAttr_self (ref : DomRef) (f : Node) (ns : List String)
    (tr0 : List Mutation) (h : ∀ a ∈ ns, a ∈ f.attrs.map Prod.fst) :
    ns.foldl (morphAttrStep false ref f f) (f.attrs, tr0) = (f.attrs, tr0) := by
  induction ns with
  | nil => rfl
  | cons a ns ih =>
    rw [List.foldl_cons]
    have hstep : morphAttrStep false ref f f (f.attrs, tr0) a = (f.attrs, tr0) := by
      have hskip : skipAttr false ref f a = false := by simp [skipAttr]
      obtain ⟨v, hv⟩ := Option.isSome_iff_exists.mp
        (getAttr_isSome_of_mem f.attrs a (h a (List.mem_cons_self a ns)))
      simp [morphAttrStep, hskip, hv]
    rw [hstep]
    exact ih (fun b hb => h b (List.mem_cons_of_mem _ hb))

theorem morphAttributes_self (ref : DomRef) (f : Node) :
    morphAttributes false ref f f = (f.attrs, []) := by
  unfold morphAttributes
  refine foldAttr_self ref f _ [] (fun a ha => ?_)
  rcases List.mem_append.mp ((mem_dedupKeepFirst _ _).mp ha) with h | h <;> exact h

theorem morphProperties_self (ref : DomRef) (f : Node) :
    morphProperties false ref f f = (f.valueProp, f.checkedProp, []) := by
  unfold morphProperties
  by_cases htag : f.tag = "input" ∨ f.tag = "textarea" <;> simp [htag]

theorem morphChildren_self (f : Node) :
    morphChildren false f f = (f.children, [], List.zip f.children f.children) := by
  unfold morphChildren
  have hlen : (f.children.map nodeKey).length = f.children.length :=
    List.length_map _ _
  rw [lcsPairs_self]
  have hmap : (List.range (f.children.map nodeKey).length).map (fun i => (i, i))
      = (List.range f.children.length).map
          (fun j => ((0 : Nat) + j, (0 : Nat) + j)) := by
    rw [hlen]
    exact List.map_congr_left (fun a _ => by simp)
  have hregions : diffRegions f.children.length f.children.length
      ((List.range (f.children.map nodeKey).length).map (fun i => (i, i))) = [] := by
    rw [hmap]
    exact diffRegionsGo_diag f.children.length f.children.length 0 (by omega)
  rw [hregions]
  simp only [collectRemovals, List.foldl_nil, List.nil_append,
    List.singleton_append]
  have hstep : processRegionStep f f ([], [], [])
      (⟨0, 0, 0, 0⟩,
       ⟨f.children.length, f.children.length, f.children.length,
        f.children.length⟩)
      = ([], List.zip f.children f.children, []) := by
    have h2 : childSlice f.children 0 (0 + (f.children.length - 0))
        = f.children := by
      simpa using childSlice_full f.children
    simp [processRegionStep, childSlice_empty, childSlice_full f.children, h2]
  have hproc : processRegions f f
      [⟨0, 0, 0, 0⟩,
       ⟨f.children.length, f.children.length, f.children.length,
        f.children.length⟩]
      [] = ([], List.zip f.children f.children, []) := by
    simp only [processRegions, List.tail_cons, List.zip_cons_cons,
      List.zip_nil_right, List.foldl_cons, List.foldl_nil]
    exact hstep
  rw [hproc]
  simp [removalNodes]

theorem morphRecurse_self (rec : Node → Node → Node × List Mutation)
    (ch : List Node) (acc : List Node) (tr : List Mutation)
    (hmorph : ∀ c ∈ ch, c.isElement = true → rec c c = (c, []))
    (hrepl : ∀ c ∈ ch, replaceFirstById acc c.id c = acc) :
    morphRecurse rec (List.zip ch ch) (acc, tr) = (acc, tr) := by
  induction ch with
  | nil => rfl
  | cons c cs ih =>
    rw [List.zip_cons_cons]
    simp only [morphRecurse, List.foldl_cons] at ih ⊢
    by_cases hel : c.isElement = true
    · rw [if_pos hel, hmorph c (List.mem_cons_self c cs) hel]
      simp only [List.append_nil]
      rw [hrepl c (List.mem_cons_self c cs)]
      exact ih (fun d hd => hmorph d (List.mem_cons_of_mem _ hd))
        (fun d hd => hrepl d (List.mem_cons_of_mem _ hd))
    · rw [if_neg hel]
      exact ih (fun d hd => hmorph d (List.mem_cons_of_mem _ hd))
        (fun d hd => hrepl d (List.mem_cons_of_mem _ hd))

theorem Node.eta_element (f : Node) (hf : f.isElement = true) :
    Node.element f.id f.tag f.attrs f.valueProp f.checkedProp f.lcu f.children
      = f := by
  match f with
  | .element _ _ _ _ _ _ _ => rfl
  | .text _ _ => exact absurd hf (by simp [Node.isElement])

/-- C5: for every tree `T` with the DOM's object-identity discipline (sibling
identities pairwise distinct), a non-push `morph(T, clone(T))` performs zero
mutations: the mutation trace is empty and the tree is returned unchanged, at
every depth. -/

theorem morph_clone_idempotent (fuel : Nat) (ref : DomRef) (T : Node)
    (hwf : T.wf = true) :
    morph fuel false ref T T = (T, []) := by
  induction fuel generalizing ref T with
  | zero => rfl
  | succ fuel ih =>
    by_cases hel : T.isElement = true
    · obtain ⟨hnd, hsub⟩ := wf_children T hwf
      rw [morph]
      simp only [hel, Bool.not_true, Bool.or_self, Bool.false_or,
        Bool.false_and, Bool.false_eq_true, if_false]
      rw [morphAttributes_self, morphProperties_self, morphChildren_self]
      rw [morphRecurse_self _ T.children T.children []
        (fun c hc _ => ih (.node T ref) c (hsub c hc))
        (fun c hc => replaceFirstById_self T.children c hnd hc)]
      simp [Node.eta_element T hel]
    · rw [morph]
      simp [hel]

theorem morph_clone_idempotent_witness :
    (Node.element 0 "ul" [("class", "x")] "" false .unset
        [Node.element 1 "li" [("key", "A")] "" false .unset [Node.text 4 "a"],
         Node.element 2 "li" [("key", "B")] "" false .unset [],
         Node.text 3 "mid"]).wf = true
    ∧ morph 3 false DomRef.null
        (Node.element 0 "ul" [("class", "x")] "" false .unset
          [Node.element 1 "li" [("key", "A")] "" false .unset [Node.text 4 "a"],
           Node.element 2 "li" [("key", "B")] "" false .unset [],
           Node.text 3 "mid"])
        (Node.element 0 "ul" [("class", "x")] "" false .unset
          [Node.element 1 "li" [("key", "A")] "" false .unset [Node.text 4 "a"],
           Node.element 2 "li" [("key", "B")] "" false .unset [],
           Node.text 3 "mid"])
      = (Node.element 0 "ul" [("class", "x")] "" false .unset
          [Node.element 1 "li" [("key", "A")] "" false .unset [Node.text 4 "a"],
           Node.element 2 "li" [("key", "B")] "" false .unset [],
           Node.text 3 "mid"], []) :=
  ⟨by decide,
   morph_clone_idempotent 3 DomRef.null
    (Node.element 0 "ul" [("class", "x")] "" false .unset
      [Node.element 1 "li" [("key", "A")] "" false .unset [Node.text 4 "a"],
       Node.element 2 "li" [("key", "B")] "" false .unset [],
       Node.text 3 "mid"]) (by decide)⟩

theorem foldl_invariant {α β : Type} (step : α → β → α) (Inv : α → Prop)
    (l : List β) (acc : α) (h0 : Inv acc)
    (hstep : ∀ x ∈ l, ∀ a, Inv a → Inv (step a x)) :
    Inv (l.foldl step acc) := by
  induction l generalizing acc with
  | nil => exact h0
  | cons x xs ih =>
    rw [List.foldl_cons]
    exact ih (step acc x) (hstep x (List.mem_cons_self x xs) acc h0)
      (fun y hy => hstep y (List.mem_cons_of_mem _ hy))

theorem childSlice_subset (ch : List Node) (s e : Nat) :
    ∀ x ∈ childSlice ch s e, x ∈ ch := by
  intro x hx
  exact List.drop_subset s ch (List.take_subset _ _ hx)

theorem lookup_mem_removalMap (k : String) (v : List Node) (m : RemovalMap)
    (h : List.lookup k m = some v) : (k, v) ∈ m := by
  induction m with
  | nil => simp [List.lookup] at h
  | cons e es ih =>
    rcases e with ⟨k', v'⟩
    rw [List.lookup] at h
    by_cases hk : k = k'
    · subst hk
      simp only [beq_self_eq_true] at h
      injection h with h
      exact h ▸ List.mem_cons_self _ _
    · rw [beq_eq_false_iff_ne.mpr hk] at h
      exact List.mem_cons_of_mem _ (ih h)

theorem removalPush_prop (P : Node → Prop) (m : RemovalMap) (k : String)
    (node : Node) (hm : QueueProp P m) (hn : P node) :
    QueueProp P (removalPush m k node) := by
  unfold removalPush
  split
  · intro e he n hne
    obtain ⟨e0, he0, rfl⟩ := List.mem_map.mp he
    by_cases hk : e0.1 = k
    · rw [if_pos hk] at hne
      simp only at hne
      rcases List.mem_append.mp hne with h | h
      · exact hm e0 he0 n h
      · rw [List.mem_singleton.mp h]
        exact hn
    · rw [if_neg hk] at hne
      exact hm e0 he0 n hne
  · intro e he n hne
    rcases List.mem_append.mp he with h | h
    · exact hm e h n hne
    · rw [List.mem_singleton.mp h] at hne
      rw [List.mem_singleton.mp hne]
      exact hn

theorem removalShift_prop (P : Node → Prop) (m : RemovalMap) (k : String)
    (hm : QueueProp P m) :
    QueueProp P (removalShift m k).2 := by
  unfold removalShift
  split
  · exact hm
  · exact hm
  · rename_i node rest hl
    intro e he n hne
    obtain ⟨e0, he0, rfl⟩ := List.mem_map.mp he
    by_cases hk : e0.1 = k
    · rw [if_pos hk] at hne
      simp only at hne
      exact hm (k, node :: rest) (lookup_mem_removalMap k _ m hl) n
        (List.mem_cons_of_mem _ hne)
    · rw [if_neg hk] at hne
      exact hm e0 he0 n hne

theorem removalShift_pop_prop (P : Node → Prop) (m : RemovalMap) (k : String)
    (n : Node) (hm : QueueProp P m) (h : (removalShift m k).1 = some n) :
    P n := by
  unfold removalShift at h
  split at h
  · simp at h
  · simp at h
  · rename_i node rest hl
    simp only [Option.some.injEq] at h
    rw [← h]
    exact hm (k, node :: rest) (lookup_mem_removalMap k _ m hl) node
      (List.mem_cons_self _ _)

theorem collectRemovals_prop (push : Bool) (children : List Node)
    (regions : List DiffRegion) :
    QueueProp (fun n => n ∈ children ∧ (push = true → n.lcuIsOff = false))
      (collectRemovals push children regions) := by
  unfold collectRemovals
  apply foldl_invariant _
    (QueueProp (fun n => n ∈ children ∧ (push = true → n.lcuIsOff = false)))
  · intro e he n hn
    simp at he
  · intro r _ m hm
    apply foldl_invariant _
      (QueueProp (fun n => n ∈ children ∧ (push = true → n.lcuIsOff = false)))
    · exact hm
    · intro node hnode m' hm'
      by_cases hskip : (push && node.lcuIsOff) = true
      · rw [if_pos hskip]
        exact hm'
      · rw [if_neg hskip]
        refine removalPush_prop _ _ _ _ hm' ⟨childSlice_subset _ _ _ node hnode, ?_⟩
        intro hp
        subst hp
        simpa using hskip

theorem processAddStep_prop (P : Node → Prop) (t : Node)
    (nodeAfter : Option Node)
    (acc : RemovalMap × List (Node × Node) × List AddEntry) (tc : Node)
    (htc : tc ∈ t.children)
    (ha : QueueProp P acc.1
      ∧ ∀ e ∈ acc.2.2,
          (e.reused = true → P e.node) ∧ (e.reused = false → e.node ∈ t.children)) :
    QueueProp P (processAddStep nodeAfter acc tc).1
    ∧ ∀ e ∈ (processAddStep nodeAfter acc tc).2.2,
        (e.reused = true → P e.node) ∧ (e.reused = false → e.node ∈ t.children) := by
  simp only [processAddStep]
  split
  · rename_i fc hs
    refine ⟨removalShift_prop P _ _ ha.1, ?_⟩
    intro e he
    rcases List.mem_append.mp he with h | h
    · exact ha.2 e h
    · rw [List.mem_singleton.mp h]
      exact ⟨fun _ => removalShift_pop_prop P _ _ _ ha.1 hs, by simp⟩
  · refine ⟨removalShift_prop P _ _ ha.1, ?_⟩
    intro e he
    rcases List.mem_append.mp he with h | h
    · exact ha.2 e h
    · rw [List.mem_singleton.mp h]
      exact ⟨by simp, fun _ => htc⟩

theorem processRegionStep_prop (P : Node → Prop) (f t : Node)
    (acc : RemovalMap × List (Node × Node) × List AddEntry)
    (pr : DiffRegion × DiffRegion)
    (ha : QueueProp P acc.1
      ∧ ∀ e ∈ acc.2.2,
          (e.reused = true → P e.node) ∧ (e.reused = false → e.node ∈ t.children)) :
    QueueProp P (processRegionStep f t acc pr).1
    ∧ ∀ e ∈ (processRegionStep f t acc pr).2.2,
        (e.reused = true → P e.node) ∧ (e.reused = false → e.node ∈ t.children) := by
  unfold processRegionStep
  apply foldl_invariant (processAddStep (f.children.get? pr.2.fromEnd))
    (fun acc => QueueProp P acc.1
      ∧ ∀ e ∈ acc.2.2,
          (e.reused = true → P e.node) ∧ (e.reused = false → e.node ∈ t.children))
  · exact ⟨ha.1, ha.2⟩
  · intro tc htc a hstep
    exact processAddStep_prop P t _ a tc (childSlice_subset _ _ _ tc htc) hstep

theorem processRegions_prop (P : Node → Prop) (f t : Node)
    (diffList : List DiffRegion) (m0 : RemovalMap) (h0 : QueueProp P m0) :
    QueueProp P (processRegions f t diffList m0).1
    ∧ ∀ e ∈ (processRegions f t diffList m0).2.2,
        (e.reused = true → P e.node) ∧ (e.reused = false → e.node ∈ t.children) := by
  unfold processRegions
  apply foldl_invariant (processRegionStep f t)
    (fun acc => QueueProp P acc.1
      ∧ ∀ e ∈ acc.2.2,
          (e.reused = true → P e.node) ∧ (e.reused = false → e.node ∈ t.children))
  · exact ⟨h0, by intro e he; simp at he⟩
  · intro pr _ acc hacc
    exact processRegionStep_prop P f t acc pr hacc

theorem removalNodes_prop (P : Node → Prop) (m : RemovalMap)
    (hm : QueueProp P m) :
    ∀ n ∈ removalNodes m, P n := by
  intro n hn
  unfold removalNodes at hn
  obtain ⟨e, he, hne⟩ := List.mem_flatMap.mp hn
  exact hm e he n hne

theorem queueProp_mono (P Q : Node → Prop) (m : RemovalMap)
    (h : QueueProp P m) (himp : ∀ n, P n → Q n) : QueueProp Q m :=
  fun e he n hn => himp n (h e he n hn)

theorem nodupIds_inj (ch : List Node) (hnd : nodupIds (ch.map Node.id) = true)
    (a b : Node) (ha : a ∈ ch) (hb : b ∈ ch) (hid : a.id = b.id) : a = b := by
  induction ch with
  | nil => simp at ha
  | cons x xs ih =>
    rw [List.map_cons, nodupIds, Bool.and_eq_true] at hnd
    have hxid : x.id ∉ xs.map Node.id := by
      have hcont := hnd.1
      rw [Bool.not_eq_true'] at hcont
      simpa using hcont
    rcases List.mem_cons.mp ha with ha' | ha' <;>
      rcases List.mem_cons.mp hb with hb' | hb'
    · rw [ha', hb']
    · exfalso
      subst ha'
      rw [hid] at hxid
      exact hxid (List.mem_map_of_mem Node.id hb')
    · exfalso
      subst hb'
      rw [← hid] at hxid
      exact hxid (List.mem_map_of_mem Node.id ha')
    · exact ih hnd.2 ha' hb'

theorem removeFirstById_keeps (cs : List Node) (i cid : Nat) (hne : cid ≠ i)
    (h : cid ∈ cs.map Node.id) :
    cid ∈ (removeFirstById cs i).map Node.id := by
  induction cs with
  | nil => simp at h
  | cons x xs ih =>
    rw [removeFirstById]
    by_cases hx : x.id = i
    · rw [if_pos hx]
      rcases List.mem_cons.mp (List.map_cons Node.id x xs ▸ h) with h' | h'
      · exact absurd (h'.trans hx) hne
      · exact h'
    · rw [if_neg hx, List.map_cons]
      rcases List.mem_cons.mp (List.map_cons Node.id x xs ▸ h) with h' | h'
      · exact h' ▸ List.mem_cons_self _ _
      · exact List.mem_cons_of_mem _ (ih h')

theorem insertBeforeFirst_keeps (cs : List Node) (r : Nat) (nd : Node)
    (cid : Nat) (h : cid ∈ cs.map Node.id) :
    cid ∈ (insertBeforeRef.insertBeforeFirst cs r nd).map Node.id := by
  induction cs with
  | nil => simp at h
  | cons x xs ih =>
    rw [insertBeforeRef.insertBeforeFirst]
    by_cases hx : x.id = r
    · rw [if_pos hx, List.map_cons]
      exact List.mem_cons_of_mem _ h
    · rw [if_neg hx, List.map_cons]
      rcases List.mem_cons.mp (List.map_cons Node.id x xs ▸ h) with h' | h'
      · exact h' ▸ List.mem_cons_self _ _
      · exact List.mem_cons_of_mem _ (ih h')

theorem insertBeforeRef_keeps (cs : List Node) (nd : Node) (ref : Option Node)
    (cid : Nat) (hne : cid ≠ nd.id) (h : cid ∈ cs.map Node.id) :
    cid ∈ (insertBeforeRef cs nd ref).map Node.id := by
  unfold insertBeforeRef
  have hkeep := removeFirstById_keeps cs nd.id cid hne h
  match ref with
  | none =>
    rw [List.map_append]
    exact List.mem_append_left _ hkeep
  | some r => exact insertBeforeFirst_keeps _ r.id nd cid hkeep

theorem foldRemove_keeps (pid : Nat) (nodes : List Node)
    (start : List Node × List Mutation) (cid : Nat)
    (h : ∀ n ∈ nodes, n.id ≠ cid) (hmem : cid ∈ start.1.map Node.id) :
    cid ∈ ((nodes.foldl (fun acc node =>
        (removeFirstById acc.1 node.id,
         acc.2 ++ [Mutation.removeChild pid node.id])) start).1).map Node.id := by
  induction nodes generalizing start with
  | nil => exact hmem
  | cons n ns ih =>
    rw [List.foldl_cons]
    exact ih _ (fun m hm => h m (List.mem_cons_of_mem _ hm))
      (removeFirstById_keeps _ _ _
        (fun he => h n (List.mem_cons_self n ns) he.symm) hmem)

theorem foldInsert_keeps (pid : Nat) (entries : List AddEntry)
    (start : List Node × List Mutation) (cid : Nat)
    (h : ∀ e ∈ entries, e.node.id ≠ cid) (hmem : cid ∈ start.1.map Node.id) :
    cid ∈ ((entries.foldl (fun acc e =>
        (insertBeforeRef acc.1 e.node e.nodeAfter,
         acc.2 ++ [Mutation.insertBefore pid e.node.id
           (e.nodeAfter.map Node.id)])) start).1).map Node.id := by
  induction entries generalizing start with
  | nil => exact hmem
  | cons e es ih =>
    rw [List.foldl_cons]
    exact ih _ (fun e' he' => h e' (List.mem_cons_of_mem _ he'))
      (insertBeforeRef_keeps _ _ _ _
        (fun he => (h e (List.mem_cons_self e es)) he.symm) hmem)

theorem replaceFirstById_map_id (cs : List Node) (i : Nat) (v : Node)
    (hv : v.id = i) :
    (replaceFirstById cs i v).map Node.id = cs.map Node.id := by
  induction cs with
  | nil => rfl
  | cons x xs ih =>
    rw [replaceFirstById]
    by_cases hx : x.id = i
    · rw [if_pos hx, List.map_cons, List.map_cons, hv, hx]
    · rw [if_neg hx, List.map_cons, List.map_cons, ih]

theorem morphRecurse_map_id (rec : Node → Node → Node × List Mutation)
    (pairs : List (Node × Node)) (start : List Node × List Mutation)
    (hrec : ∀ a b, (rec a b).1.id = a.id) :
    ((morphRecurse rec pairs start).1).map Node.id = start.1.map Node.id := by
  induction pairs generalizing start with
  | nil => rfl
  | cons pr prs ih =>
    simp only [morphRecurse, List.foldl_cons] at ih ⊢
    by_cases hel : pr.1.isElement = true
    · rw [if_pos hel, ih]
      simp only
      exact replaceFirstById_map_id _ _ _ (hrec pr.1 pr.2)
    · rw [if_neg hel, ih]

/-- On a push update, a live child whose `liveConnectionUpdate` is `false`
survives the child reconciliation: its identity is still among the new
children. -/

theorem morphChildren_keeps_pinned (f t c : Node)
    (hc : c ∈ f.children) (hoff : c.lcuIsOff = true)
    (hnd : nodupIds (f.children.map Node.id) = true)
    (hdisj : ∀ n ∈ t.children, n.id ∉ f.children.map Node.id) :
    c.id ∈ ((morphChildren true f t).1).map Node.id := by
  simp only [morphChildren]
  have hP : QueueProp (fun n => n ∈ f.children ∧ n.lcuIsOff = false)
      (collectRemovals true f.children
        (diffRegions f.children.length t.children.length
          (lcsPairs (f.children.map nodeKey) (t.children.map nodeKey)))) :=
    queueProp_mono _ _ _ (collectRemovals_prop true f.children _)
      (fun n hn => ⟨hn.1, hn.2 rfl⟩)
  obtain ⟨hqueue, hadds⟩ := processRegions_prop
    (fun n => n ∈ f.children ∧ n.lcuIsOff = false) f t _ _ hP
  have hne_of_P : ∀ n, n ∈ f.children ∧ n.lcuIsOff = false → n.id ≠ c.id := by
    intro n hn he
    have := nodupIds_inj f.children hnd n c hn.1 hc he
    rw [this] at hn
    rw [hn.2] at hoff
    exact Bool.false_ne_true hoff
  apply foldInsert_keeps
  · intro e he
    rcases hre : e.reused with _ | _
    · have hmem := (hadds e he).2 hre
      intro heq
      exact hdisj e.node hmem (heq ▸ List.mem_map_of_mem Node.id hc)
    · exact hne_of_P e.node ((hadds e he).1 hre)
  · apply foldRemove_keeps
    · intro n hn
      exact hne_of_P n (removalNodes_prop _ _ hqueue n hn)
    · exact List.mem_map_of_mem Node.id hc

theorem morph_succ_children (fuel : Nat) (push : Bool) (ref : DomRef)
    (f t : Node) (hf : f.isElement = true) (ht : t.isElement = true)
    (hoff : (push && f.lcuIsOff) = false) :
    (morph (fuel + 1) push ref f t).1.children
      = (morphRecurse (fun a b => morph fuel push (.node f ref) a b)
          (morphChildren push f t).2.2 ((morphChildren push f t).1, [])).1 := by
  rw [morph]
  simp [hf, ht, hoff, Node.children]

/-- C3: if `morph` runs as a push update on a live node whose
`liveConnectionUpdate` is explicitly `false`, it returns immediately — the
node is returned unchanged with an empty mutation trace; and during a push
update a live child whose `liveConnectionUpdate` is explicitly `false` is
never removed — its identity is still among the result's children even when
the target tree omits it. -/

theorem morph_pinned_subtree (fuel : Nat) (ref : DomRef) (f t c : Node)
    (hc : c ∈ f.children) (hoff : c.lcuIsOff = true)
    (hnd : nodupIds (f.children.map Node.id) = true)
    (hdisj : ∀ n ∈ t.children, n.id ∉ f.children.map Node.id) :
    (∀ (fuel' : Nat) (ref' : DomRef) (g u : Node), g.lcuIsOff = true →
        morph fuel' true ref' g u = (g, []))
    ∧ c.id ∈ ((morph fuel true ref f t).1).children.map Node.id := by
  constructor
  · intro fuel' ref' g u hg
    match fuel' with
    | 0 => rfl
    | fuel' + 1 =>
      rw [morph]
      by_cases h1 : (!g.isElement || !u.isElement) = true
      · simp [h1]
      · simp [h1, hg]
  · match fuel with
    | 0 => exact List.mem_map_of_mem Node.id hc
    | fuel + 1 =>
      by_cases hf : f.isElement = true
      · by_cases ht : t.isElement = true
        · by_cases hoff2 : f.lcuIsOff = true
          · have hm : morph (fuel + 1) true ref f t = (f, []) := by
              rw [morph]
              simp [hf, ht, hoff2]
            rw [hm]
            exact List.mem_map_of_mem Node.id hc
          · rw [Bool.not_eq_true] at hoff2
            rw [morph_succ_children fuel true ref f t hf ht (by simp [hoff2])]
            rw [morphRecurse_map_id _ _ _
              (fun a b => morph_fst_id fuel true (.node f ref) a b)]
            exact morphChildren_keeps_pinned f t c hc hoff hnd hdisj
        · rw [Bool.not_eq_true] at ht
          have hm : morph (fuel + 1) true ref f t = (f, []) := by
            rw [morph]
            simp [ht]
          rw [hm]
          exact List.mem_map_of_mem Node.id hc
      · rw [Bool.not_eq_true] at hf
        have hm : morph (fuel + 1) true ref f t = (f, []) := by
          rw [morph]
          simp [hf]
        rw [hm]
        exact List.mem_map_of_mem Node.id hc

theorem morph_pinned_subtree_witness :
    morph 2 true DomRef.null
        (Node.element 7 "aside" [] "" false .off
          [Node.element 8 "div" [] "" false .unset []])
        (Node.element 9 "aside" [("class", "x")] "" false .unset [])
      = (Node.element 7 "aside" [] "" false .off
          [Node.element 8 "div" [] "" false .unset []], [])
    ∧ (7 : Nat) ∈ ((morph 2 true DomRef.null
        (Node.element 0 "ul" [] "" false .unset
          [Node.element 7 "li" [("key", "keep")] "" false .off []])
        (Node.element 100 "ul" [] "" false .unset [])).1).children.map Node.id := by
  have h := morph_pinned_subtree 2 DomRef.null
    (Node.element 0 "ul" [] "" false .unset
      [Node.element 7 "li" [("key", "keep")] "" false .off []])
    (Node.element 100 "ul" [] "" false .unset [])
    (Node.element 7 "li" [("key", "keep")] "" false .off [])
    (List.mem_singleton.mpr rfl) rfl (by decide) (by decide)
  exact ⟨h.1 2 DomRef.null
      (Node.element 7 "aside" [] "" false .off
        [Node.element 8 "div" [] "" false .unset []])
      (Node.element 9 "aside" [("class", "x")] "" false .unset []) rfl,
    h.2⟩

theorem lookup_eq_none_iff_not_mem (m : RemovalMap) (k : String) :
    List.lookup k m = none ↔ k ∉ m.map Prod.fst := by
  induction m with
  | nil => simp [List.lookup]
  | cons e es ih =>
    rcases e with ⟨k', v'⟩
    rw [List.lookup]
    by_cases hk : k = k'
    · subst hk
      simp
    · rw [beq_eq_false_iff_ne.mpr hk]
      simp [hk, ih]

theorem lookup_of_mem_nodup (m : RemovalMap) (k : String) (v : List Node)
    (hnd : removalKeysNodup m) (hmem : (k, v) ∈ m) :
    List.lookup k m = some v := by
  induction m with
  | nil => simp at hmem
  | cons e es ih =>
    rcases e with ⟨k', v'⟩
    unfold removalKeysNodup at hnd
    rw [List.map_cons, List.nodup_cons] at hnd
    rcases List.mem_cons.mp hmem with h | h
    · injection h with h1 h2
      subst h1
      subst h2
      rw [List.lookup, beq_self_eq_true]
    · rw [List.lookup]
      by_cases hk : k = k'
      · exfalso
        have hmk : k ∈ es.map Prod.fst := List.mem_map_of_mem Prod.fst h
        rw [hk] at hmk
        exact hnd.1 hmk
      · rw [beq_eq_false_iff_ne.mpr hk]
        exact ih hnd.2 h

theorem lookup_map_update_ne (m : RemovalMap) (k' : String)
    (upd : String × List Node → List Node) (k : String) (hk : k ≠ k') :
    List.lookup k (m.map (fun e => if e.1 = k' then (e.1, upd e) else e))
      = List.lookup k m := by
  induction m with
  | nil => rfl
  | cons e es ih =>
    rcases e with ⟨k0, v0⟩
    rw [List.map_cons]
    by_cases h0 : k0 = k'
    · rw [if_pos h0]
      rw [List.lookup, List.lookup]
      have : (k == k0) = false := beq_eq_false_iff_ne.mpr (fun he => hk (he.trans h0))
      rw [this]
      exact ih
    · rw [if_neg h0]
      rw [List.lookup, List.lookup]
      by_cases hkk : k = k0
      · rw [beq_iff_eq.mpr hkk]
      · rw [beq_eq_false_iff_ne.mpr hkk]
        exact ih

theorem map_update_keys (m : RemovalMap) (k' : String)
    (upd : String × List Node → List Node) :
    (m.map (fun e => if e.1 = k' then (e.1, upd e) else e)).map Prod.fst
      = m.map Prod.fst := by
  rw [List.map_map]
  refine List.map_congr_left (fun e _ => ?_)
  by_cases h : e.1 = k' <;> simp [h]

theorem removalShift_snd_of_none (m : RemovalMap) (k : String)
    (h : (removalShift m k).1 = none) : (removalShift m k).2 = m := by
  rcases hl : List.lookup k m with _ | v
  · simp [removalShift, hl]
  · rcases v with _ | ⟨n, rest⟩
    · simp [removalShift, hl]
    · exfalso
      simp [removalShift, hl] at h

theorem removalShift_none_queueEmpty (m : RemovalMap) (k : String)
    (h : (removalShift m k).1 = none) : queueNonempty m k = false := by
  rcases hl : List.lookup k m with _ | v
  · simp [queueNonempty, hl]
  · rcases v with _ | ⟨n, rest⟩
    · simp [queueNonempty, hl]
    · exfalso
      simp [removalShift, hl] at h

theorem removalShift_queueEmpty_mono (m : RemovalMap) (k' k : String)
    (h : queueNonempty m k = false) :
    queueNonempty (removalShift m k').2 k = false := by
  rcases hl : List.lookup k' m with _ | v
  · simpa [removalShift, hl] using h
  · rcases v with _ | ⟨n, rest⟩
    · simpa [removalShift, hl] using h
    · by_cases hk : k = k'
      · exfalso
        subst hk
        simp [queueNonempty, hl] at h
      · simp only [removalShift, hl, queueNonempty]
        rw [lookup_map_update_ne m k' (fun _ => rest) k hk]
        simpa [queueNonempty] using h

theorem processAddStep_fresh (nodeAfter : Option Node)
    (acc : RemovalMap × List (Node × Node) × List AddEntry) (tc : Node)
    (hInv : ∀ e ∈ acc.2.2, e.reused = false →
      queueNonempty acc.1 (nodeKey e.node) = false) :
    ∀ e ∈ (processAddStep nodeAfter acc tc).2.2, e.reused = false →
      queueNonempty (processAddStep nodeAfter acc tc).1 (nodeKey e.node)
        = false := by
  simp only [processAddStep]
  split
  · rename_i fc hs
    intro e he hef
    rcases List.mem_append.mp he with h | h
    · exact removalShift_queueEmpty_mono _ _ _ (hInv e h hef)
    · rw [List.mem_singleton.mp h] at hef
      simp at hef
  · rename_i hs
    intro e he hef
    rcases List.mem_append.mp he with h | h
    · rw [removalShift_snd_of_none _ _ hs]
      exact hInv e h hef
    · rw [List.mem_singleton.mp h]
      simp only
      rw [removalShift_snd_of_none _ _ hs]
      exact removalShift_none_queueEmpty _ _ hs

theorem processRegions_fresh (f t : Node) (diffList : List DiffRegion)
    (m0 : RemovalMap) :
    ∀ e ∈ (processRegions f t diffList m0).2.2, e.reused = false →
      queueNonempty (processRegions f t diffList m0).1 (nodeKey e.node)
        = false := by
  unfold processRegions
  apply foldl_invariant (processRegionStep f t)
    (fun acc => ∀ e ∈ acc.2.2, e.reused = false →
      queueNonempty acc.1 (nodeKey e.node) = false)
  · intro e he
    simp at he
  · intro pr _ acc hacc
    unfold processRegionStep
    apply foldl_invariant (processAddStep _)
      (fun acc => ∀ e ∈ acc.2.2, e.reused = false →
        queueNonempty acc.1 (nodeKey e.node) = false)
    · exact hacc
    · intro tc _ a ha
      exact processAddStep_fresh _ a tc ha

theorem removalShift_keys (m : RemovalMap) (k : String)
    (hkc : KeyConsistent m) (hnd : removalKeysNodup m) :
    KeyConsistent (removalShift m k).2 ∧ removalKeysNodup (removalShift m k).2 := by
  rcases hl : List.lookup k m with _ | v
  · simpa [removalShift, hl] using ⟨hkc, hnd⟩
  · rcases v with _ | ⟨n, rest⟩
    · simpa [removalShift, hl] using ⟨hkc, hnd⟩
    · constructor
      · simp only [removalShift, hl]
        intro e he nn hnn
        obtain ⟨e0, he0, rfl⟩ := List.mem_map.mp he
        by_cases hk0 : e0.1 = k
        · rw [if_pos hk0] at hnn ⊢
          simp only at hnn ⊢
          have he02 : e0.2 = n :: rest := by
            have h1 : List.lookup e0.1 m = some e0.2 :=
              lookup_of_mem_nodup m e0.1 e0.2 hnd (by simpa using he0)
            rw [hk0, hl] at h1
            exact (Option.some.injEq _ _ ▸ h1).symm
          have : nn ∈ e0.2 := by
            rw [he02]
            exact List.mem_cons_of_mem _ hnn
          exact hkc e0 he0 nn this
        · rw [if_neg hk0] at hnn ⊢
          exact hkc e0 he0 nn hnn
      · simp only [removalShift, hl]
        unfold removalKeysNodup
        rw [map_update_keys]
        exact hnd

theorem removalPush_keys (m : RemovalMap) (k : String) (node : Node)
    (hkey : nodeKey node = k) (hkc : KeyConsistent m)
    (hnd : removalKeysNodup m) :
    KeyConsistent (removalPush m k node)
    ∧ removalKeysNodup (removalPush m k node) := by
  unfold removalPush
  split
  · constructor
    · intro e he nn hnn
      obtain ⟨e0, he0, rfl⟩ := List.mem_map.mp he
      by_cases hk0 : e0.1 = k
      · rw [if_pos hk0] at hnn ⊢
        simp only at hnn ⊢
        rcases List.mem_append.mp hnn with h | h
        · exact hkc e0 he0 nn h
        · rw [List.mem_singleton.mp h, hkey, hk0]
      · rw [if_neg hk0] at hnn ⊢
        exact hkc e0 he0 nn hnn
    · unfold removalKeysNodup
      rw [map_update_keys]
      exact hnd
  · rename_i hl
    constructor
    · intro e he nn hnn
      rcases List.mem_append.mp he with h | h
      · exact hkc e h nn hnn
      · rw [List.mem_singleton.mp h] at hnn ⊢
        rw [List.mem_singleton.mp hnn]
        exact hkey
    · unfold removalKeysNodup
      rw [List.map_append]
      refine List.Nodup.append hnd (List.nodup_singleton k) ?_
      intro x hx hy
      rw [List.mem_singleton.mp hy] at hx
      exact (lookup_eq_none_iff_not_mem m k).mp hl hx

theorem collectRemovals_keys (push : Bool) (children : List Node)
    (regions : List DiffRegion) :
    KeyConsistent (collectRemovals push children regions)
    ∧ removalKeysNodup (collectRemovals push children regions) := by
  unfold collectRemovals
  apply foldl_invariant _ (fun m => KeyConsistent m ∧ removalKeysNodup m)
  · exact ⟨fun e he => absurd he (List.not_mem_nil e), List.nodup_nil⟩
  · intro r _ m hm
    apply foldl_invariant _ (fun m => KeyConsistent m ∧ removalKeysNodup m) _ _ hm
    intro node _ m' hm'
    by_cases hskip : (push && node.lcuIsOff) = true
    · rw [if_pos hskip]
      exact hm'
    · rw [if_neg hskip]
      exact removalPush_keys m' (nodeKey node) node rfl hm'.1 hm'.2

theorem processRegions_keys (f t : Node) (diffList : List DiffRegion)
    (m0 : RemovalMap) (h0 : KeyConsistent m0 ∧ removalKeysNodup m0) :
    KeyConsistent (processRegions f t diffList m0).1
    ∧ removalKeysNodup (processRegions f t diffList m0).1 := by
  unfold processRegions
  apply foldl_invariant (processRegionStep f t)
    (fun acc => KeyConsistent acc.1 ∧ removalKeysNodup acc.1) _ _ h0
  intro pr _ acc hacc
  simp only [processRegionStep]
  apply foldl_invariant (processAddStep (f.children.get? pr.2.fromEnd))
    (fun acc => KeyConsistent acc.1 ∧ removalKeysNodup acc.1)
  · exact ⟨hacc.1, hacc.2⟩
  · intro tc _ a ha
    have hres := removalShift_keys a.1 (nodeKey tc) ha.1 ha.2
    simp only [processAddStep]
    split <;> exact hres

/-- C4: removal candidates from all diff gaps are collected first into
per-key FIFO queues, and every target-side child of a change region pops the
earliest same-key candidate if any remains; therefore a live node is never
discarded (left in a queue at removal time) while a same-key target child
went unmatched (was inserted fresh).  And reordering siblings
`[key:A, key:B, key:C]` into `[key:C, key:A, key:B]` preserves all three
live node identities: the only mutation is one `insertBefore` move, with no
removal and no fresh insertion. -/

theorem morph_fifo_reuse (push : Bool) (f t : Node)
    (regions diffList : List DiffRegion) :
    (∀ e ∈ (processRegions f t diffList
        (collectRemovals push f.children regions)).2.2,
      e.reused = false →
      ∀ n ∈ removalNodes (processRegions f t diffList
          (collectRemovals push f.children regions)).1,
        nodeKey n ≠ nodeKey e.node)
    ∧ morph 2 false DomRef.null
        (Node.element 0 "ul" [] "" false .unset
          [Node.element 1 "div" [("key", "A")] "" false .unset [],
           Node.element 2 "div" [("key", "B")] "" false .unset [],
           Node.element 3 "div" [("key", "C")] "" false .unset []])
        (Node.element 100 "ul" [] "" false .unset
          [Node.element 13 "div" [("key", "C")] "" false .unset [],
           Node.element 11 "div" [("key", "A")] "" false .unset [],
           Node.element 12 "div" [("key", "B")] "" false .unset []])
      = (Node.element 0 "ul" [] "" false .unset
          [Node.element 3 "div" [("key", "C")] "" false .unset [],
           Node.element 1 "div" [("key", "A")] "" false .unset [],
           Node.element 2 "div" [("key", "B")] "" false .unset []],
         [Mutation.insertBefore 0 3 (some 1)]) := by
  constructor
  · intro e he hef n hn heq
    obtain ⟨hkc, hnd⟩ := processRegions_keys f t diffList _
      (collectRemovals_keys push f.children regions)
    obtain ⟨entry, hentry, hnin⟩ := List.mem_flatMap.mp hn
    rcases entry with ⟨ek, q⟩
    have hkey : nodeKey n = ek := hkc (ek, q) hentry n hnin
    have hlookup := lookup_of_mem_nodup _ ek q hnd hentry
    have hne : queueNonempty (processRegions f t diffList
        (collectRemovals push f.children regions)).1 (nodeKey n) = true := by
      rw [hkey]
      unfold queueNonempty
      rw [hlookup]
      rcases hq : q with _ | ⟨x, xs⟩
      · rw [hq] at hnin
        simp at hnin
      · rfl
    have hempty := processRegions_fresh f t diffList _ e he hef
    rw [heq] at hne
    rw [hempty] at hne
    exact Bool.false_ne_true hne
  · decide

theorem morph_fifo_reuse_witness :
    nodeKey (Node.element 2 "div" [("key", "B")] "" false .unset [])
      ≠ nodeKey (Node.element 12 "div" [("key", "X")] "" false .unset []) :=
  (morph_fifo_reuse false
      (Node.element 0 "ul" [] "" false .unset
        [Node.element 1 "div" [("key", "A")] "" false .unset [],
         Node.element 2 "div" [("key", "B")] "" false .unset []])
      (Node.element 100 "ul" [] "" false .unset
        [Node.element 11 "div" [("key", "A")] "" false .unset [],
         Node.element 12 "div" [("key", "X")] "" false .unset []])
      [⟨1, 2, 1, 2⟩] [⟨0, 0, 0, 0⟩, ⟨1, 2, 1, 2⟩, ⟨2, 2, 2, 2⟩]).1
    ⟨Node.element 12 "div" [("key", "X")] "" false .unset [], none, false⟩
    (by decide) rfl
    (Node.element 2 "div" [("key", "B")] "" false .unset [])
    (by decide)

theorem parents_includes_self_witness :
    parents (.node (Node.element 1 "input" [] "old" false (.allow ["value"]) [])
        DomRef.null)
      = [Node.element 1 "input" [] "old" false (.allow ["value"]) []]
    ∧ (morph 1 true DomRef.null
        (Node.element 1 "input" [] "old" false (.allow ["value"]) [])
        (Node.element 2 "input" [] "new" false .unset [])).1.valueProp = "new" := by
  have h := parents_includes_self 0 DomRef.null
    (Node.element 1 "input" [] "old" false (.allow ["value"]) [])
    (Node.element 2 "input" [] "new" false .unset [])
    ["value"] rfl rfl rfl
  exact ⟨(h.1 _ DomRef.null).trans rfl,
    (h.2.2.1 (by decide) (Or.inl rfl)).trans rfl⟩

/-- C8: when the live document and the incoming content both carry a version
marker and the values differ, `documentMount` aborts: the modification
tracking is set clean (`isModified = false`), the event is not dispatched,
no morph mutation is performed, and the document is unchanged except that
any existing global-error element is replaced by the persistent
reload-instruction banner prepended to `body`. -/

theorem documentMount_version_skew (fuel freshId : Nat) (doc : Doc)
    (content : Node) (push : Bool) (dv cv : String)
    (hdv : documentVersionString doc.html = some dv)
    (hcv : documentVersionString content = some cv) (hne : dv ≠ cv) :
    (documentMount fuel freshId doc content push).1.isModifiedProp = some false
    ∧ (documentMount fuel freshId doc content push).2.1 = false
    ∧ (documentMount fuel freshId doc content push).2.2 = []
    ∧ (documentMount fuel freshId doc content push).1.html
        = insertGlobalErrorBanner (removeGlobalError doc.html)
            (globalErrorBanner freshId versionErrorMessage) := by
  have hcond : documentMount fuel freshId doc content push
      = (⟨insertGlobalErrorBanner (removeGlobalError doc.html)
            (globalErrorBanner freshId versionErrorMessage), some false⟩,
         false, []) := by
    unfold documentMount
    rw [hdv, hcv]
    simp [hne]
  rw [hcond]
  exact ⟨rfl, rfl, rfl, rfl⟩

theorem documentMount_version_skew_witness :
    (documentMount 3 1000
        ⟨Node.element 0 "html" [] "" false .unset
          [Node.element 1 "head" [] "" false .unset
            [Node.element 2 "meta"
              [("name", "version"), ("content", "1")] "" false .unset []],
           Node.element 3 "body" [] "" false .unset []], none⟩
        (Node.element 10 "html" [] "" false .unset
          [Node.element 11 "head" [] "" false .unset
            [Node.element 12 "meta"
              [("name", "version"), ("content", "2")] "" false .unset []],
           Node.element 13 "body" [] "" false .unset []])
        true).1.isModifiedProp = some false
    ∧ (documentMount 3 1000
        ⟨Node.element 0 "html" [] "" false .unset
          [Node.element 1 "head" [] "" false .unset
            [Node.element 2 "meta"
              [("name", "version"), ("content", "1")] "" false .unset []],
           Node.element 3 "body" [] "" false .unset []], none⟩
        (Node.element 10 "html" [] "" false .unset
          [Node.element 11 "head" [] "" false .unset
            [Node.element 12 "meta"
              [("name", "version"), ("content", "2")] "" false .unset []],
           Node.element 13 "body" [] "" false .unset []])
        true).2.1 = false := by
  have h := documentMount_version_skew 3 1000
    ⟨Node.element 0 "html" [] "" false .unset
      [Node.element 1 "head" [] "" false .unset
        [Node.element 2 "meta"
          [("name", "version"), ("content", "1")] "" false .unset []],
       Node.element 3 "body" [] "" false .unset []], none⟩
    (Node.element 10 "html" [] "" false .unset
      [Node.element 11 "head" [] "" false .unset
        [Node.element 12 "meta"
          [("name", "version"), ("content", "2")] "" false .unset []],
       Node.element 13 "body" [] "" false .unset []])
    true "1" "2" (by decide) (by decide) (by decide)
  exact ⟨h.1, h.2.1⟩

/-- C1 (counterexample): with a fetch in flight (`abortController = some 0`),
an intercepted link click / form submission (`event` is `undefined`) hits the
early `return` — it is dropped, not issued as a superseding fetch aborting
the previous one as the claim states. -/

theorem liveNavigate_second_click_dropped :
    liveNavigateStart ⟨some 0, false⟩ .undef false true 1
      = .dropped ⟨some 0, false⟩
    ∧ liveNavigateStart ⟨some 0, false⟩ .undef false true 1
      ≠ .fetching (some 0) ⟨some 1, false⟩ := by
  decide

/-- C1 (amended): only a back/forward (`PopStateEvent`) navigation aborts an
in-flight navigation fetch before issuing its own — so at most one
cancellation token exists at a time; an intercepted link click or form
submission while a fetch is in flight returns immediately without fetching
and without showing the unsaved-edits prompt (it is dropped, not
superseded); with no fetch in flight, a click/submit proceeds unless the
unsaved-edits prompt (shown only when not in a form submission and the
document is modified) is declined. -/

theorem liveNavigateStart_spec (ab : Option Nat) (i m c : Bool) (n : Nat) :
    liveNavigateStart ⟨ab, i⟩ .popState m c n = .fetching ab ⟨some n, i⟩
    ∧ (∀ t : Nat, liveNavigateStart ⟨some t, i⟩ .undef m c n
        = .dropped ⟨some t, i⟩)
    ∧ liveNavigateStart ⟨none, i⟩ .undef m c n
        = (if !i && m && !c then .dropped ⟨none, i⟩
           else .fetching none ⟨some n, i⟩) := by
  refine ⟨rfl, fun t => ?_, ?_⟩
  · simp [liveNavigateStart]
  · by_cases h : (!i && m && !c) = true <;> simp [liveNavigateStart, h]

/-- C9: when a live-connection attempt opens successfully (status 200, no
forced reload pending), every newline-delimited record decoded from the
response body triggers exactly one `documentMount` call flagged as a Live
Connection update, in arrival order; in particular two payloads in one
streaming turn produce exactly two `documentMount` calls in order. -/

theorem liveConnection_streams_in_order (reload : Bool) (status : Nat)
    (body : String) (h200 : status = 200) :
    liveConnectionAttempt reload status false body
      = .streamed ((jsonLinesRecords body).map (fun r => (r, true)))
    ∧ liveConnectionAttempt reload status false "documentA\ndocumentB\n"
      = .streamed [("documentA", true), ("documentB", true)] := by
  have hloop : ∀ rs : List String,
      liveConnectionReadLoop rs = rs.map (fun r => (r, true)) := by
    intro rs
    induction rs with
    | nil => rfl
    | cons r rest ih =>
      rw [liveConnectionReadLoop, ih]
      rfl
  subst h200
  refine ⟨by simp [liveConnectionAttempt, hloop], ?_⟩
  simp only [liveConnectionAttempt, if_neg (by omega : ¬(200 : Nat) ≠ 200),
    Bool.false_eq_true, if_false]
  rfl

theorem liveConnection_streams_in_order_witness :
    liveConnectionAttempt false 200 false "documentA\ndocumentB\n"
      = .streamed [("documentA", true), ("documentB", true)] :=
  (liveConnection_streams_in_order false 200 "documentA\ndocumentB\n" rfl).2

end RS
